import Mathlib

/-!
# Verification of PyGazeAnalyser event detection and signal conditioning

Shallow embedding of the event-detection and trace-repair core of
PyGazeAnalyser (`pygazeanalyser/detectors.py`, `pygazeanalyser/traces.py`)
and proofs about the behaviour of the embedded functions.

Conventions of the embedding:
* NumPy float arrays become `List ℚ` where the code performs only rational
  arithmetic, and `List ℝ` where irrational functions (square roots,
  trigonometric window kernels) are involved.  Values that can be NaN are
  `Option ℚ` with `none` playing the role of NaN; every comparison with
  `none` is false, exactly as every IEEE comparison with NaN is false.
* `np.where(cond)[0]` becomes `npwhere`, `np.diff` becomes `npdiff`.
* Python exceptions become `Except String` results.
* Python lists that detectors append records to become Lean lists built with
  `++ [r]`; records `[a, b, c]` become tuples `(a, b, c)`.
-/

namespace PyGaze

/-- `np.where(p(l))[0]`: the (strictly increasing) list of indices of
elements satisfying `p`. -/
def npwhere {α : Type} (p : α → Bool) : List α → List ℕ
  | [] => []
  | a :: l => (if p a then [0] else []) ++ (npwhere p l).map (· + 1)

/-- `np.diff(l)`: first difference, `diff[i] = l[i+1] - l[i]`. -/
def npdiff {α : Type} [Sub α] (l : List α) : List α :=
  List.zipWith (fun a b => a - b) l.tail l

/-- Python list indexing `l[i]` for a possibly negative index
(`l[-k]` is `l[len l - k]`); out-of-range reads default to `0`-like junk,
they are only used where the original program indexes in range. -/
def pyGet {α : Type} [Inhabited α] (l : List α) (i : ℤ) : α :=
  if 0 ≤ i then l.getD i.toNat default else l.getD (l.length - (-i).toNat) default

/-! ## NaN-aware scalar arithmetic

Python/NumPy floats that may be NaN are embedded as `Option`; `none` is NaN.
Arithmetic propagates `none`; every ordered comparison involving `none` is
`false`, matching IEEE NaN comparison semantics. -/

section OptionArith

variable {α : Type} [LinearOrderedField α]

/-- NaN-propagating binary operation. -/
def oBin (f : α → α → α) : Option α → Option α → Option α
  | some a, some b => some (f a b)
  | _, _ => none

/-- NaN-propagating addition. -/
def oAdd : Option α → Option α → Option α := oBin (· + ·)

/-- NaN-propagating subtraction. -/
def oSub : Option α → Option α → Option α := oBin (· - ·)

/-- NaN-propagating multiplication. -/
def oMul : Option α → Option α → Option α := oBin (· * ·)

/-- NaN-propagating division.  Division by zero is mapped to `none`;
NumPy would produce `±inf` (with a warning) for a nonzero numerator.  Every
theorem in this file that involves `oDiv` is insensitive to this choice:
either the denominator is provably nonzero, or the result is compared
against a NaN threshold (false either way). -/
def oDiv : Option α → Option α → Option α
  | some a, some b => if b = 0 then none else some (a / b)
  | _, _ => none

/-- `a < b` on floats, false when either side is NaN. -/
def oLt : Option α → Option α → Bool
  | some a, some b => decide (a < b)
  | _, _ => false

/-- `a > c` against a non-NaN constant, false when `a` is NaN. -/
def oGtC (a : Option α) (c : α) : Bool :=
  match a with
  | some v => decide (c < v)
  | none => false

/-- `a < c` against a non-NaN constant, false when `a` is NaN. -/
def oLtC (a : Option α) (c : α) : Bool :=
  match a with
  | some v => decide (v < c)
  | none => false

/-- `a >= c` against a non-NaN constant, false when `a` is NaN. -/
def oGeC (a : Option α) (c : α) : Bool :=
  match a with
  | some v => decide (c ≤ v)
  | none => false

end OptionArith

/-! ## Missing-value resolver (`detectors.replace_missings`,
`detectors.interpolate_missings`)

Generic over a linear ordered field so the same embedding serves the
rational-valued and the real-valued detectors. -/

section Resolver

variable {α : Type} [LinearOrderedField α] [DecidableEq α]

/-- Piecewise-linear interpolant through knots `(xs i, ys i)` (the embedding
of `scipy.interpolate.interp1d(x, y, kind='linear')` for strictly increasing
integer abscissae), evaluated at an integer point.  `bounds_error=False`
semantics: evaluation outside the knot range yields NaN (`none`). -/
def linEvalAux (t : ℕ) : List (ℕ × α) → Option α
  | [] => none
  | [(x0, y0)] => if t = x0 then some y0 else none
  | (x0, y0) :: (x1, y1) :: rest =>
    if t < x0 then none
    else if t ≤ x1 then some (y0 + (y1 - y0) * ((t : α) - (x0 : α)) / ((x1 : α) - (x0 : α)))
    else linEvalAux t ((x1, y1) :: rest)

/-- `interp1d(idx[not_nan], data[not_nan], bounds_error=False)` applied to
index `t`. -/
def linEval (xs : List ℕ) (ys : List α) (t : ℕ) : Option α :=
  linEvalAux t (xs.zip ys)

/-- `detectors.interpolate_missings(data, missing)`: missing samples become
NaN, the remaining finite samples interpolate linearly over the index axis.
The length check is scipy's documented `interp1d` requirement of at least
two data points (`x and y arrays must have at least 2 entries`). -/
def interpolate_missings (data : List α) (missing : α) :
    Except String (List (Option α)) :=
  let d : List (Option α) := data.map (fun v => if v = missing then none else some v)
  let notNan := npwhere (fun v : Option α => v.isSome) d
  if notNan.length < 2 then
    .error "ValueError: x and y arrays must have at least 2 entries"
  else
    let ys := notNan.map (fun i => (d.getD i none).getD 0)
    .ok ((List.range d.length).map (fun i =>
      match d.getD i none with
      | some v => some v
      | none => linEval notNan ys i))

/-- One pass of the carry-forward loop: `data[idx] = data[idx - 1]` where
`idx = np.where(data == missing)[0]`; the right-hand side gathers from the
array as it was before the assignment. -/
def carryOnce (missing : α) (d : List (Option α)) : List (Option α) :=
  let idx := npwhere (fun v : Option α => v = some missing) d
  idx.foldl (fun acc i => acc.set i (pyGet d ((i : ℤ) - 1))) d

/-- The `while True` carry-forward loop of `replace_missings`, with fuel.
Each iteration erodes every missing run from the left, so `data.length`
iterations always suffice for inputs on which the Python loop terminates. -/
def carryLoop (missing : α) : ℕ → List (Option α) → List (Option α)
  | 0, d => d
  | fuel + 1, d =>
    if npwhere (fun v : Option α => v = some missing) d = [] then d
    else carryLoop missing fuel (carryOnce missing d)

/-- `detectors.replace_missings(data, missing, interpolate)`. -/
def replace_missings (data : List α) (missing : α) (interpolate : Bool) :
    Except String (List (Option α)) :=
  if interpolate then interpolate_missings data missing
  else
    match data with
    | [] => .error "IndexError"
    | d0 :: _ =>
      let d : List (Option α) := data.map some
      let d1 := if d0 = missing then d.set 0 none else d
      .ok (carryLoop missing (data.length + 1) d1)

end Resolver

/-! ## Blink detector (`detectors.blink_detection`) -/

/-- `mx = np.array(x == missing, dtype=int)`,
`my = np.array(y == missing, dtype=int)`,
`miss = np.array((mx + my) == 2, dtype=int)`. -/
def blinkMask (x y : List ℚ) (missing : ℚ) : List ℤ :=
  let mx := x.map (fun a => if a = missing then (1 : ℤ) else 0)
  let my := y.map (fun a => if a = missing then (1 : ℤ) else 0)
  List.zipWith (fun a b => if a + b = 2 then (1 : ℤ) else 0) mx my

/-- `starts = np.where(diff == 1)[0] + 1`. -/
def blinkStarts (x y : List ℚ) (missing : ℚ) : List ℕ :=
  (npwhere (fun v : ℤ => v = 1) (npdiff (blinkMask x y missing))).map (· + 1)

/-- `ends = np.where(diff == -1)[0] + 1`. -/
def blinkEnds (x y : List ℚ) (missing : ℚ) : List ℕ :=
  (npwhere (fun v : ℤ => v = -1) (npdiff (blinkMask x y missing))).map (· + 1)

/-- The rising-edge computation of `blink_detection`, factored over an
arbitrary int mask: `np.where(np.diff(m) == 1)[0] + 1`. -/
def maskStarts (m : List ℤ) : List ℕ :=
  (npwhere (fun v : ℤ => v = 1) (npdiff m)).map (· + 1)

/-- The falling-edge computation of `blink_detection`, factored over an
arbitrary int mask: `np.where(np.diff(m) == -1)[0] + 1`. -/
def maskEnds (m : List ℤ) : List ℕ :=
  (npwhere (fun v : ℤ => v = -1) (npdiff m)).map (· + 1)

/-- The ending index paired with the `i`-th start: `ends[i]` when
`i < len(ends)`, otherwise `ends[-1]` when `ends` is nonempty, otherwise
the sentinel `-1`. -/
def blinkE (ends : List ℕ) (i : ℕ) : ℤ :=
  if i < ends.length then (ends.getD i 0 : ℤ)
  else if 0 < ends.length then (ends.getLastD 0 : ℤ)
  else -1

/-- `detectors.blink_detection(x, y, time, missing, minlen)`.
`Sblk` entries hold the start time; `Eblk` entries hold
`(starttime, endtime, duration)`. -/
def blink_detection (x y time : List ℚ) (missing : ℚ) (minlen : ℤ) :
    List ℚ × List (ℚ × ℚ × ℚ) :=
  let starts := blinkStarts x y missing
  let ends := blinkEnds x y missing
  (List.range starts.length).foldl
    (fun acc i =>
      let s : ℤ := ((starts.getD i 0 : ℕ) : ℤ)
      let e : ℤ := blinkE ends i
      if minlen ≤ e - s then
        (acc.1 ++ [pyGet time s],
         acc.2 ++ [(pyGet time s, pyGet time e, pyGet time e - pyGet time s)])
      else acc)
    ([], [])

/-! ## Fixation detector (`detectors.fixation_detection`) -/

/-- `detectors.REPLACE_MISSINGS`. -/
def REPLACE_MISSINGS : ℤ := 1

/-- `detectors.INTERPOLATE_MISSINGS`. -/
def INTERPOLATE_MISSINGS : ℤ := 2

section Fixation

variable {α : Type} [LinearOrderedField α] [DecidableEq α]

/-- The comparison `dist <= maxdist` of the source, where
`dist = ((x[si]-x[i])**2 + (y[si]-y[i])**2)**0.5` and `v` is the squared
distance.  Since `dist = √v ≥ 0`, for every real `m` one has
`√v ≤ m ↔ 0 ≤ m ∧ v ≤ m²`; this comparison encoding avoids square roots
and keeps the detector executable over the rationals. -/
def distLeB (v m : α) : Bool :=
  decide (0 ≤ m) && decide (v ≤ m * m)

/-- Squared inter-sample distance `(x[si]-x[i])**2 + (y[si]-y[i])**2`
(NaN-propagating). -/
def fixDist (x y : List (Option α)) (si i : ℕ) : Option α :=
  oAdd
    (oMul (oSub (x.getD si none) (x.getD i none)) (oSub (x.getD si none) (x.getD i none)))
    (oMul (oSub (y.getD si none) (y.getD i none)) (oSub (y.getD si none) (y.getD i none)))

/-- `dist <= maxdist`; false when the distance is NaN. -/
def fixDistLe (d : Option α) (maxdist : α) : Bool :=
  match d with
  | some v => distLeB v maxdist
  | none => false

/-- `dist > maxdist`; false when the distance is NaN. -/
def fixDistGt (d : Option α) (maxdist : α) : Bool :=
  match d with
  | some v => !distLeB v maxdist
  | none => false

/-- A fixation end record `(starttime, endtime, duration, endx, endy)`. -/
abbrev FixRec (α : Type) := α × α × α × Option α × Option α

/-- One iteration of the fixation scanning loop, at sample index `i`.
State: `(si, fixstart, Sfix, Efix)`. -/
def fixStep (time : List α) (maxdist mindur : α) (x y : List (Option α))
    (st : ℕ × Bool × List α × List (FixRec α)) (i : ℕ) :
    ℕ × Bool × List α × List (FixRec α) :=
  let si := st.1
  let fixstart := st.2.1
  let Sfix := st.2.2.1
  let Efix := st.2.2.2
  let d := fixDist x y si i
  if fixDistLe d maxdist && !fixstart then
    (i, true, Sfix ++ [time.getD i 0], Efix)
  else if fixDistGt d maxdist && fixstart then
    let start := Sfix.getLastD 0
    if mindur ≤ time.getD (i - 1) 0 - start then
      (i, false, Sfix,
        Efix ++ [(start, time.getD (i - 1) 0, time.getD (i - 1) 0 - start,
          x.getD si none, y.getD si none)])
    else (i, false, Sfix.dropLast, Efix)
  else if !fixstart then (si + 1, fixstart, Sfix, Efix)
  else st

/-- `detectors.fixation_detection(x, y, time, missing, maxdist, mindur,
handle_missings)`.  In Python 2, `None > 0` is false, so the default
`handle_missings=None` skips the missing-handling branch. -/
def fixation_detection (x y time : List α) (missing maxdist mindur : α)
    (handle_missings : Option ℤ) :
    Except String (List α × List (FixRec α)) :=
  let hm : Bool := match handle_missings with
    | none => false
    | some v => decide (0 < v)
  let xyE : Except String (List (Option α) × List (Option α)) :=
    if hm then
      let interpolate : Bool := decide (handle_missings = some INTERPOLATE_MISSINGS)
      match replace_missings x missing interpolate, replace_missings y missing interpolate with
      | .ok xr, .ok yr => .ok (xr, yr)
      | .error e, _ => .error e
      | .ok _, .error e => .error e
    else .ok (x.map some, y.map some)
  match xyE with
  | .error e => .error e
  | .ok xy =>
    let r := (List.range' 1 (xy.1.length - 1)).foldl (fixStep time maxdist mindur xy.1 xy.2)
      (0, false, ([] : List α), ([] : List (FixRec α)))
    .ok (r.2.2.1, r.2.2.2)

end Fixation

/-! ## Saccade detector (`detectors.saccade_detection`)

Embedded over `ℝ` because inter-sample velocities are square roots divided
by time deltas and accelerations are their differences, which have no
rational encoding.  Division by a zero inter-sample time yields `none`
(NaN) here where NumPy would produce `±inf`; the theorems proved about this
detector depend only on the final duration guard, never on velocity
values. -/

/-- A saccade end record
`(starttime, endtime, duration, startx, starty, endx, endy)`. -/
abbrev SacRec := ℝ × ℝ × ℝ × Option ℝ × Option ℝ × Option ℝ × Option ℝ

/-- `np.diff` on a NaN-aware array. -/
noncomputable def oDiff (l : List (Option ℝ)) : List (Option ℝ) :=
  List.zipWith oSub l.tail l

/-- `np.hypot` on NaN-aware coordinates. -/
noncomputable def oHypot : Option ℝ → Option ℝ → Option ℝ
  | some a, some b => some (Real.sqrt (a * a + b * b))
  | _, _ => none

/-- `if t1i >= len(time)-1: t1i = len(time)-2`. -/
def clampT1 (n t1i0 : ℕ) : ℕ :=
  if n - 1 ≤ t1i0 then n - 2 else t1i0

/-- `if t2i >= len(time): t2i = len(time)-1`. -/
def clampT2 (n t2i0 : ℕ) : ℕ :=
  if n ≤ t2i0 then n - 1 else t2i0

/-- The `while not stop` scanning loop of `saccade_detection`, with fuel.
The cursor `t0i` strictly increases while bounded by `len(time) - 1`, so
`len(time) + 1` units of fuel always suffice. -/
noncomputable def sacLoop (x y : List (Option ℝ)) (time : List ℝ)
    (vel acc : List (Option ℝ)) (minlen maxvel maxacc : ℝ) :
    ℕ → ℕ → List ℝ × List SacRec → List ℝ × List SacRec
  | 0, _, st => st
  | fuel + 1, t0i, st =>
    let sacstarts := npwhere
      (fun pr : Option ℝ × Option ℝ => oGtC pr.1 maxvel || oGtC pr.2 maxacc)
      ((vel.drop (1 + t0i)).zip (acc.drop t0i))
    match sacstarts with
    | [] => st
    | s0 :: _ =>
      let t1i := clampT1 time.length (t0i + s0 + 1)
      let t1 := time.getD t1i 0
      let Ssac1 := st.1 ++ [t1]
      let sacends := npwhere
        (fun pr : Option ℝ × Option ℝ => oLtC pr.1 maxvel && oLtC pr.2 maxacc)
        ((vel.drop (1 + t1i)).zip (acc.drop t1i))
      match sacends with
      | [] => (Ssac1, st.2)
      | e0 :: _ =>
        let t2i := clampT2 time.length (e0 + 1 + t1i + 2)
        let t2 := time.getD t2i 0
        let dur := t2 - t1
        if minlen ≤ dur then
          sacLoop x y time vel acc minlen maxvel maxacc fuel t2i
            (Ssac1, st.2 ++ [(t1, t2, dur, x.getD t1i none, y.getD t1i none,
              x.getD t2i none, y.getD t2i none)])
        else
          sacLoop x y time vel acc minlen maxvel maxacc fuel t2i
            (Ssac1.dropLast, st.2)

/-- `detectors.saccade_detection(x, y, time, missing, minlen, maxvel,
maxacc, handle_missings)`. -/
noncomputable def saccade_detection (x y time : List ℝ)
    (missing minlen maxvel maxacc : ℝ) (handle_missings : Option ℤ) :
    Except String (List ℝ × List SacRec) :=
  let hm : Bool := match handle_missings with
    | none => false
    | some v => decide (0 < v)
  let xyE : Except String (List (Option ℝ) × List (Option ℝ)) :=
    if hm then
      let interpolate : Bool := decide (handle_missings = some INTERPOLATE_MISSINGS)
      match replace_missings x missing interpolate, replace_missings y missing interpolate with
      | .ok xr, .ok yr => .ok (xr, yr)
      | .error e, _ => .error e
      | .ok _, .error e => .error e
    else .ok (x.map some, y.map some)
  match xyE with
  | .error e => .error e
  | .ok xy =>
    let intdist := List.zipWith oHypot (oDiff xy.1) (oDiff xy.2)
    let inttime := (npdiff time).map (fun t => t / 1000)
    let vel := List.zipWith (fun d t => oDiv d (some t)) intdist inttime
    let acc := oDiff vel
    .ok (sacLoop xy.1 xy.2 time vel acc minlen maxvel maxacc (time.length + 1) 0 ([], []))

/-! ## Smoothing (`traces.smooth`)

Over `ℝ` because the Hanning/Hamming/Blackman kernels are trigonometric. -/

/-- `numpy.ones(M)`. -/
noncomputable def npOnes (M : ℕ) : List ℝ :=
  List.replicate M 1

/-- `numpy.hanning(M)` (with NumPy's small-`M` special cases). -/
noncomputable def npHanning (M : ℕ) : List ℝ :=
  if M < 1 then []
  else if M = 1 then [1]
  else (List.range M).map (fun n : ℕ =>
    0.5 - 0.5 * Real.cos (2 * Real.pi * (n : ℝ) / ((M : ℝ) - 1)))

/-- `numpy.hamming(M)`. -/
noncomputable def npHamming (M : ℕ) : List ℝ :=
  if M < 1 then []
  else if M = 1 then [1]
  else (List.range M).map (fun n : ℕ =>
    0.54 - 0.46 * Real.cos (2 * Real.pi * (n : ℝ) / ((M : ℝ) - 1)))

/-- `numpy.bartlett(M)`. -/
noncomputable def npBartlett (M : ℕ) : List ℝ :=
  if M < 1 then []
  else if M = 1 then [1]
  else (List.range M).map (fun n : ℕ =>
    2 / ((M : ℝ) - 1) * (((M : ℝ) - 1) / 2 - |(n : ℝ) - ((M : ℝ) - 1) / 2|))

/-- `numpy.blackman(M)`. -/
noncomputable def npBlackman (M : ℕ) : List ℝ :=
  if M < 1 then []
  else if M = 1 then [1]
  else (List.range M).map (fun n : ℕ =>
    0.42 - 0.5 * Real.cos (2 * Real.pi * (n : ℝ) / ((M : ℝ) - 1))
      + 0.08 * Real.cos (4 * Real.pi * (n : ℝ) / ((M : ℝ) - 1)))

/-- `np.convolve(a, v, mode='valid')` for `len a ≤ len v`:
entry `k` is `Σ_j a[j] · v[k + len a − 1 − j]`. -/
noncomputable def convValidAux (a v : List ℝ) : List ℝ :=
  (List.range (v.length - a.length + 1)).map
    (fun k => ∑ j ∈ Finset.range a.length, a.getD j 0 * v.getD (k + a.length - 1 - j) 0)

/-- `np.convolve(a, v, mode='valid')` (convolution is symmetric; NumPy swaps
the arguments so the shorter one is the kernel). -/
noncomputable def convValid (a v : List ℝ) : List ℝ :=
  if a.length ≤ v.length then convValidAux a v else convValidAux v a

/-- The supported smoothing kernels. -/
def smoothWindows : List String :=
  ["flat", "hanning", "hamming", "bartlett", "blackman"]

/-- `traces.smooth(signal, winlen, window, lencorrect)`.  The integer
divisions `winlen/2` are Python 2 floor divisions.  `signal[winlen-1:0:-1]`
and `signal[-1:-winlen:-1]` are the mirrored pads; `smoothed[a:-b]` is the
centring trim. -/
noncomputable def smooth (signal : List ℝ) (winlen : ℕ) (window : String)
    (lencorrect : Bool) : Except String (List ℝ) :=
  if winlen < 3 then .ok signal
  else if ¬ (window ∈ smoothWindows) then
    .error "Error in pyenalysis.smooth: windowtype is not supported"
  else if signal.length < winlen then
    .error "Error in pyenalysis.smooth: input signal has too few datapoints"
  else
    let p1 := ((signal.drop 1).take (winlen - 1)).reverse
    let p3 := ((signal.drop (signal.length - winlen + 1)).take (winlen - 1)).reverse
    let s := p1 ++ signal ++ p3
    let w :=
      if window = "flat" then npOnes winlen
      else if window = "hanning" then npHanning winlen
      else if window = "hamming" then npHamming winlen
      else if window = "bartlett" then npBartlett winlen
      else npBlackman winlen
    let smoothed := convValid (w.map (fun v => v / w.sum)) s
    if lencorrect then
      .ok (((smoothed.take (smoothed.length - winlen / 2)).drop (winlen / 2 - 1)).take
        signal.length)
    else .ok smoothed

/-! ## Hampel filter (`traces.hampel`) -/

/-- `numpy.median`: NaN for the empty array, otherwise the middle of the
sorted data (mean of the two middle entries for even length). -/
def npMedian (l : List ℚ) : Option ℚ :=
  match l with
  | [] => none
  | _ :: _ =>
    let s := l.insertionSort (· ≤ ·)
    let n := l.length
    if n % 2 = 1 then some (s.getD (n / 2) 0)
    else some ((s.getD (n / 2 - 1) 0 + s.getD (n / 2) 0) / 2)

/-- The body of the Hampel loop at focus index `i` with window
`signal[wstart:wstop]`: local median, the `1.4826`-scaled median absolute
deviation `s0`, then the source's comparison
`signal[i] > T*s0 or signal[i] < T*s0` (which reads `signal[i]` and hence
raises `IndexError` when `i` is out of range). -/
def hampelBody (T : ℚ) (s : List ℚ) (wstart wstop i : ℕ) :
    Except String (List ℚ) :=
  let win := (s.drop wstart).take (wstop - wstart)
  let med := npMedian win
  let s0 : Option ℚ := match med with
    | none => none
    | some m => (npMedian (win.map (fun v => |v - m|))).map
        (fun d => (14826 / 10000 : ℚ) * d)
  if i < s.length then
    let cond := match s0 with
      | none => false
      | some s0v => decide (T * s0v < s.getD i 0) || decide (s.getD i 0 < T * s0v)
    if cond then .ok (s.set i (med.getD 0)) else .ok s
  else .error "IndexError"

/-- `traces.hampel(signal, winlen, T, focus)`; `winlen/2` is Python 2 floor
division. -/
def hampel (signal : List ℚ) (winlen : ℕ) (T : ℚ) (focus : String) :
    Except String (List ℚ) :=
  if focus = "centre" then
    let hw := winlen / 2
    (List.range' hw ((signal.length - hw + 1) - hw)).foldlM
      (fun s i => hampelBody T s (i - hw) (i + hw) i) signal
  else
    let start := if focus = "left" then 0
      else if focus = "right" then winlen
      else winlen / 2
    let stop := if focus = "left" then signal.length - winlen
      else if focus = "right" then signal.length
      else signal.length - winlen / 2 + 1
    (List.range' start (stop - start)).foldlM
      (fun s i =>
        let wstart := if focus = "left" then i
          else if focus = "right" then i - winlen
          else i - winlen / 2
        let wstop := if focus = "left" then i + winlen
          else if focus = "right" then i
          else i + winlen / 2
        hampelBody T s wstart wstop i) signal

/-! ## Micro-saccade detector (`detectors.EK_microsaccade_detection`) -/

/-- `numpy.median` on a NaN-aware array: NaN as soon as any entry is NaN
(NumPy's documented behaviour), NaN on the empty array. -/
def npMedianO (l : List (Option ℚ)) : Option ℚ :=
  if l.any (fun v => v.isNone) then none
  else npMedian (l.map (fun v => v.getD 0))

/-- `np.roll(l, shift, axis=0)`: entry `i` of the result is entry
`(i - shift) mod len` of `l`. -/
def nproll {β : Type} (shift : ℤ) (l : List β) : List β :=
  l.rotate ((-shift) % (l.length : ℤ)).toNat

/-- A micro-saccade record
`(start, stop, duration, xstart, ystart, xend, yend)`; `none` entries are
the `np.nan` placeholders of records still being built. -/
abbrev EKRec :=
  Option ℚ × Option ℚ × Option ℚ × Option ℚ × Option ℚ × Option ℚ × Option ℚ

/-- The all-NaN record, used as the junk default of in-range list reads. -/
def EKRecDefault : EKRec := (none, none, none, none, none, none, none)

/-- The 5-sample moving-average velocity estimate of Engbert & Kliegl:
`vn = (roll(xy,-2) + roll(xy,-1) - roll(xy,1) - roll(xy,2)) / (6*dt)`,
with the first two and last two rows overwritten by NaN. -/
def EKvn (x y times : List ℚ) : List (Option ℚ × Option ℚ) :=
  let xy := x.zip y
  let n := xy.length
  let dt : Option ℚ := npMedian (npdiff times)
  let denom : Option ℚ := oMul (some 6) dt
  (List.range n).map (fun i =>
    if i < 2 ∨ n - 2 ≤ i then ((none : Option ℚ), (none : Option ℚ))
    else
      let a := (nproll (-2) xy).getD i (0, 0)
      let b := (nproll (-1) xy).getD i (0, 0)
      let c := (nproll 1 xy).getD i (0, 0)
      let d := (nproll 2 xy).getD i (0, 0)
      (oDiv (some (a.1 + b.1 - c.1 - d.1)) denom,
       oDiv (some (a.2 + b.2 - c.2 - d.2)) denom))

/-- The per-axis adaptive threshold `eta = 6 * sigma` where
`sigma = median(vn**2, axis=0) - median(vn, axis=0)**2`. -/
def EKeta (vn : List (Option ℚ × Option ℚ)) (axis : Bool) : Option ℚ :=
  let comp : Option ℚ × Option ℚ → Option ℚ := fun r => if axis then r.2 else r.1
  let sigma := oSub (npMedianO (vn.map (fun r => oMul (comp r) (comp r))))
    (oMul (npMedianO (vn.map comp)) (npMedianO (vn.map comp)))
  oMul (some 6) sigma

/-- The moving mask `np.sum(vn > eta, axis=1) > 0` at sample `c`: true iff
either axis's velocity strictly exceeds its threshold (false on NaN). -/
def EKmoving (vn : List (Option ℚ × Option ℚ)) (eta1 eta2 : Option ℚ) (c : ℕ) : Bool :=
  oLt eta1 (vn.getD c (none, none)).1 || oLt eta2 (vn.getD c (none, none)).2

/-- `detectors.EK_microsaccade_detection(x, y, times, minimum_duration)`.
When the scan produces no candidate, `np.array([])` is one-dimensional and
the subsequent `Esac[:,2]` raises `IndexError`. -/
def EK_microsaccade_detection (x y times : List ℚ) (minimum_duration : ℚ) :
    Except String (List EKRec) :=
  let xy := x.zip y
  let n := xy.length
  let vn := EKvn x y times
  let eta1 := EKeta vn false
  let eta2 := EKeta vn true
  let scan := (List.range n).foldl
    (fun (st : List EKRec × Bool) c =>
      if EKmoving vn eta1 eta2 c then
        if !st.2 then
          (st.1 ++ [(some (times.getD c 0), none, none,
            some ((xy.getD c (0, 0)).1), some ((xy.getD c (0, 0)).2), none, none)],
           true)
        else st
      else
        if st.2 then
          let last := st.1.getLastD EKRecDefault
          (st.1.dropLast ++ [(last.1, some (times.getD c 0), last.2.2.1,
            last.2.2.2.1, last.2.2.2.2.1,
            some ((xy.getD c (0, 0)).1), some ((xy.getD c (0, 0)).2))],
           false)
        else st)
    ([], false)
  match scan.1 with
  | [] => .error "IndexError: too many indices for array"
  | _ :: _ =>
    let withDur := scan.1.map (fun r =>
      (r.1, r.2.1, oSub r.2.1 r.1, r.2.2.2.1, r.2.2.2.2.1, r.2.2.2.2.2.1,
        r.2.2.2.2.2.2))
    let idx := npwhere (fun r : EKRec => oGeC r.2.2.1 minimum_duration) withDur
    .ok (idx.map (fun i => withDur.getD i EKRecDefault))

/-! ## Generic missing-data interpolation (`traces.interpolate_missing`)

The working signal is NaN-aware (`Option ℚ`) because boundary samples can be
overwritten with the mean of an empty selection.  `scipy.interpolate.interp1d`
with `kind='cubic'` is a not-a-knot cubic spline; on exactly four knots (the
only way this source reaches it) that spline is the unique degree-3
interpolating polynomial, i.e. Lagrange interpolation.  Forcing `cubic` with
fewer knots raises scipy's order check, and `linear` needs two knots. -/

/-- `numpy.mean` of a NaN-aware array: NaN on the empty array and when any
entry is NaN. -/
def npMeanO (l : List (Option ℚ)) : Option ℚ :=
  if l.length = 0 then none
  else if l.any (fun v => v.isNone) then none
  else some ((l.map (fun v => v.getD 0)).sum / l.length)

/-- Python `range(a, b, 2)`. -/
def rangeStep2 (a b : ℕ) : List ℕ :=
  (List.range ((b - a + 1) / 2)).map (fun k => a + 2 * k)

/-- Piecewise-linear interpolation through NaN-aware knots with integer
abscissae, evaluated at `t`; NaN outside the knot range. -/
def linEvalO (t : ℤ) : List (ℤ × Option ℚ) → Option ℚ
  | [] => none
  | [(x0, y0)] => if t = x0 then y0 else none
  | (x0, y0) :: (x1, y1) :: rest =>
    if t < x0 then none
    else if t ≤ x1 then
      oAdd y0 (oDiv (oMul (oSub y1 y0) (some ((t : ℚ) - (x0 : ℚ))))
        (some ((x1 : ℚ) - (x0 : ℚ))))
    else linEvalO t ((x1, y1) :: rest)

/-- Lagrange interpolation through NaN-aware knots (the value of the
four-knot not-a-knot cubic spline), evaluated at `t`.  Knot abscissae are
distinct at every call site. -/
def lagEval (pts : List (ℤ × Option ℚ)) (t : ℤ) : Option ℚ :=
  pts.foldl
    (fun acc p =>
      oAdd acc (oMul p.2 (pts.foldl
        (fun prod q =>
          if q.1 = p.1 then prod
          else oMul prod (oDiv (some ((t : ℚ) - (q.1 : ℚ))) (some ((p.1 : ℚ) - (q.1 : ℚ)))))
        (some 1))))
    (some 0)

/-- `interp1d(x, y, kind=kind)` construction (scipy's minimum point-count
validation) and evaluation at one integer point. -/
def interp1dEval (kind : String) (pts : List (ℤ × Option ℚ)) (t : ℤ) : Option ℚ :=
  if kind = "linear" then linEvalO t pts else lagEval pts t

/-- scipy's `interp1d` order check: `linear` needs at least 2 data points,
`cubic` at least 4. -/
def interp1dCheck (kind : String) (npts : ℕ) : Except String Unit :=
  if kind = "linear" ∧ npts < 2 then
    .error "ValueError: x and y arrays must have at least 2 entries"
  else if kind = "cubic" ∧ npts < 4 then
    .error "ValueError: The number of derivatives at boundaries does not match"
  else .ok ()

/-- `traces.interpolate_missing(signal, mode, mindur, margin, invalid)`. -/
def interpolate_missing (signal : List ℚ) (mode : String) (mindur : ℤ)
    (margin : ℕ) (invalid : ℚ) : Except String (List (Option ℚ)) :=
  if ¬ (mode ∈ ["auto", "linear", "cubic"]) then
    .error "Error in pyenalysis.interpolate_missing: mode is not supported"
  else
    match signal with
    | [] => .error "IndexError"
    | s0 :: _ =>
      let n := signal.length
      let si : ℕ := if s0 = invalid then 1 else 0
      let starts0 : List ℕ := if s0 = invalid then [0] else []
      let inval : List Bool := signal.map (fun v => v = invalid)
      -- `np.diff` on a boolean array is elementwise exclusive-or
      let changes := npwhere (fun b : Bool => b)
        (List.zipWith (fun a b => xor a b) inval.tail inval)
      let starts := starts0 ++ (rangeStep2 si changes.length).map
        (fun i => ((changes.getD i 0 : ℤ) - (margin : ℤ)).toNat)
      let ends := ((rangeStep2 (1 - si) changes.length).map (fun i =>
          let ne := changes.getD i 0 + 1 + margin
          if n ≤ ne then n - 1 else ne))
        ++ (if signal.getLast? = some invalid then [n - 1] else [])
      let s1 : List (Option ℚ) := signal.map some
      let s2 := if s0 = invalid then
          s1.set 0 (npMeanO (s1.filter (fun v => ¬ v = some invalid)))
        else s1
      let s3 := if s2.getD (n - 1) none = some invalid then
          s2.set (n - 1) (npMeanO (s2.filter (fun v => ¬ v = some invalid)))
        else s2
      (List.range starts.length).foldlM
        (fun (s : List (Option ℚ)) i =>
          let st := starts.getD i 0
          let en := ends.getD i 0
          let duration : ℤ := (en : ℤ) - (st : ℤ)
          let before : ℤ := (st : ℤ) - duration
          let after : ℤ := (en : ℤ) + duration
          let pl : List ℤ :=
            (if 0 ≤ before ∧ ¬ pyGet s before = some invalid then [before] else [])
            ++ [(st : ℤ), (en : ℤ)]
            ++ (if after < (n : ℤ) ∧ ¬ pyGet s after = some invalid then [after] else [])
          let kind := if duration < mindur then "linear"
            else if mode = "auto" then
              (if 4 ≤ pl.length then "cubic" else "linear")
            else mode
          let pts := pl.map (fun xj => (xj, pyGet s xj))
          do
            _ ← interp1dCheck kind pts.length
            pure ((List.range' st (en - st)).foldl
              (fun acc j => acc.set j (interp1dEval kind pts (j : ℤ))) s))
        s3

/-! ## Basic facts about the helpers -/

theorem npwhere_lt_length {α : Type} (p : α → Bool) :
    ∀ (l : List α), ∀ j ∈ npwhere p l, j < l.length := by
  intro l
  induction l with
  | nil => intro j hj; simp [npwhere] at hj
  | cons a t ih =>
    intro j hj
    simp only [npwhere, List.mem_append, List.mem_map] at hj
    rcases hj with hj | ⟨k, hk, rfl⟩
    · have : j = 0 := by split at hj <;> simp_all
      simp [this]
    · have := ih k hk
      simp only [List.length_cons]
      omega

theorem npwhere_sorted {α : Type} (p : α → Bool) :
    ∀ (l : List α), (npwhere p l).Sorted (· < ·) := by
  intro l
  induction l with
  | nil => simp [npwhere]
  | cons a t ih =>
    have hmap : ((npwhere p t).map (· + 1)).Sorted (· < ·) := by
      refine List.Pairwise.map _ ?_ ih
      intro a b h
      simpa using h
    simp only [npwhere]
    split
    · simp only [List.singleton_append, List.sorted_cons]
      refine ⟨?_, hmap⟩
      intro b hb
      simp only [List.mem_map] at hb
      obtain ⟨c, _, rfl⟩ := hb
      simp
    · simpa using hmap

theorem mem_npwhere {α : Type} [Inhabited α] (p : α → Bool) :
    ∀ (l : List α) (j : ℕ), j ∈ npwhere p l ↔ j < l.length ∧ p (l.getD j default) = true := by
  intro l
  induction l with
  | nil => intro j; simp [npwhere]
  | cons a t ih =>
    intro j
    cases j with
    | zero => simp [npwhere]
    | succ k => simp [npwhere, ih k]

/-- A fold that conditionally appends a pair of elements equals the filtered
map on each component. -/
theorem foldl_guard_pair {ι β γ : Type} (p : ι → Prop) [DecidablePred p]
    (f : ι → β) (g : ι → γ) :
    ∀ (L : List ι) (A : List β) (B : List γ),
      L.foldl (fun acc i => if p i then (acc.1 ++ [f i], acc.2 ++ [g i]) else acc) (A, B)
        = (A ++ (L.filter (fun i => decide (p i))).map f,
           B ++ (L.filter (fun i => decide (p i))).map g) := by
  intro L
  induction L with
  | nil => intro A B; simp
  | cons a t ih =>
    intro A B
    by_cases h : p a
    · simp [List.foldl_cons, List.filter_cons, h, ih]
    · simp [List.foldl_cons, List.filter_cons, h, ih]

/-- Invariants are preserved by `foldl`. -/
theorem foldl_inv {σ ι : Type} (f : σ → ι → σ) (P : σ → Prop)
    (hstep : ∀ s i, P s → P (f s i)) :
    ∀ (L : List ι) (s : σ), P s → P (L.foldl f s) := by
  intro L
  induction L with
  | nil => intro s hs; simpa using hs
  | cons a t ih => intro s hs; exact ih _ (hstep s a hs)

/-- In a non-decreasingly sorted list, earlier entries are at most later
in-range entries. -/
theorem sorted_le_getD {l : List ℚ} (h : l.Sorted (· ≤ ·)) {i j : ℕ}
    (hij : i ≤ j) (hj : j < l.length) : l.getD i 0 ≤ l.getD j 0 := by
  have hi : i < l.length := lt_of_le_of_lt hij hj
  rw [List.getD_eq_getElem l 0 hi, List.getD_eq_getElem l 0 hj]
  rcases eq_or_lt_of_le hij with rfl | hlt
  · exact le_refl _
  · exact List.pairwise_iff_get.mp h ⟨i, hi⟩ ⟨j, hj⟩ hlt

/-! ## Facts about the blink detector -/

theorem blinkMask_length (x y : List ℚ) (missing : ℚ) :
    (blinkMask x y missing).length = min x.length y.length := by
  simp [blinkMask]

theorem blinkStarts_mem_bound (x y : List ℚ) (missing : ℚ) :
    ∀ s ∈ blinkStarts x y missing,
      1 ≤ s ∧ s < (blinkMask x y missing).length := by
  intro s hs
  simp only [blinkStarts, List.mem_map] at hs
  obtain ⟨w, hw, rfl⟩ := hs
  have h1 := npwhere_lt_length _ _ w hw
  have h2 : (npdiff (blinkMask x y missing)).length + 1 ≤ (blinkMask x y missing).length
      ∨ (npdiff (blinkMask x y missing)).length = 0 := by
    cases hmask : blinkMask x y missing with
    | nil => right; simp [npdiff, hmask]
    | cons a t => left; simp [npdiff, hmask]
  omega

theorem blinkEnds_mem_bound (x y : List ℚ) (missing : ℚ) :
    ∀ e ∈ blinkEnds x y missing,
      1 ≤ e ∧ e < (blinkMask x y missing).length := by
  intro e he
  simp only [blinkEnds, List.mem_map] at he
  obtain ⟨w, hw, rfl⟩ := he
  have h1 := npwhere_lt_length _ _ w hw
  have h2 : (npdiff (blinkMask x y missing)).length + 1 ≤ (blinkMask x y missing).length
      ∨ (npdiff (blinkMask x y missing)).length = 0 := by
    cases hmask : blinkMask x y missing with
    | nil => right; simp [npdiff, hmask]
    | cons a t => left; simp [npdiff, hmask]
  omega

/-- `blink_detection` as a filtered map over the paired edge indices. -/
theorem blink_detection_eq (x y time : List ℚ) (missing : ℚ) (minlen : ℤ) :
    blink_detection x y time missing minlen =
      (((List.range (blinkStarts x y missing).length).filter
          (fun i => decide (minlen ≤ blinkE (blinkEnds x y missing) i
            - (((blinkStarts x y missing).getD i 0 : ℕ) : ℤ)))).map
        (fun i => pyGet time (((blinkStarts x y missing).getD i 0 : ℕ) : ℤ)),
       ((List.range (blinkStarts x y missing).length).filter
          (fun i => decide (minlen ≤ blinkE (blinkEnds x y missing) i
            - (((blinkStarts x y missing).getD i 0 : ℕ) : ℤ)))).map
        (fun i => (pyGet time (((blinkStarts x y missing).getD i 0 : ℕ) : ℤ),
          pyGet time (blinkE (blinkEnds x y missing) i),
          pyGet time (blinkE (blinkEnds x y missing) i)
            - pyGet time (((blinkStarts x y missing).getD i 0 : ℕ) : ℤ)))) := by
  unfold blink_detection
  exact foldl_guard_pair _ _ _ _ [] []


/-- The last element with default of a nonempty list is a member. -/
theorem getLastD_mem {α : Type} (l : List α) (d : α) (h : l ≠ []) :
    l.getLastD d ∈ l := by
  induction l with
  | nil => exact absurd rfl h
  | cons a t ih =>
    cases t with
    | nil => simp
    | cons b u =>
      have := ih (by simp)
      rw [List.getLastD_cons]
      exact List.mem_cons_of_mem a this

/-- Python indexing with a cast natural index is plain indexing. -/
theorem pyGet_natCast (l : List ℚ) (s : ℕ) : pyGet l (s : ℤ) = l.getD s 0 := by
  have hd : (default : ℚ) = 0 := rfl
  simp [pyGet, hd]

/-- Every blink end record `(starttime, endtime, duration)` has
`duration = endtime - starttime` and `starttime ≤ endtime`, provided the
configured minimal length is non-negative, timestamps are non-decreasing and
the arrays are index-aligned. -/
theorem blink_end_ge_start (x y time : List ℚ) (missing : ℚ) (minlen : ℤ)
    (hmin : 0 ≤ minlen) (hsort : time.Sorted (· ≤ ·))
    (hx : x.length = time.length) (hy : y.length = time.length) :
    ∀ r ∈ (blink_detection x y time missing minlen).2,
      r.1 ≤ r.2.1 ∧ r.2.2 = r.2.1 - r.1 := by
  intro r hr
  rw [blink_detection_eq] at hr
  simp only [List.mem_map, List.mem_filter, List.mem_range] at hr
  obtain ⟨i, ⟨hi, hguard⟩, rfl⟩ := hr
  refine ⟨?_, rfl⟩
  have hguard' : minlen ≤ blinkE (blinkEnds x y missing) i
      - (((blinkStarts x y missing).getD i 0 : ℕ) : ℤ) := of_decide_eq_true hguard
  have hsmem : (blinkStarts x y missing).getD i 0 ∈ blinkStarts x y missing := by
    rw [List.getD_eq_getElem _ 0 hi]
    exact List.getElem_mem _
  have hsb := blinkStarts_mem_bound x y missing _ hsmem
  have hmask : (blinkMask x y missing).length = time.length := by
    rw [blinkMask_length, hx, hy]; simp
  set s := (blinkStarts x y missing).getD i 0 with hs
  have hps : pyGet time ((s : ℕ) : ℤ) = time.getD s 0 := pyGet_natCast time s
  by_cases h1 : i < (blinkEnds x y missing).length
  · have he : blinkE (blinkEnds x y missing) i
        = (((blinkEnds x y missing).getD i 0 : ℕ) : ℤ) := by
      simp [blinkE, h1]
    have hemem : (blinkEnds x y missing).getD i 0 ∈ blinkEnds x y missing := by
      rw [List.getD_eq_getElem _ 0 h1]
      exact List.getElem_mem _
    have heb := blinkEnds_mem_bound x y missing _ hemem
    set e := (blinkEnds x y missing).getD i 0 with hetag
    have hse : s ≤ e := by
      rw [he] at hguard'
      omega
    have hpe : pyGet time (blinkE (blinkEnds x y missing) i) = time.getD e 0 := by
      rw [he]; exact pyGet_natCast time e
    rw [hps, hpe]
    exact sorted_le_getD hsort hse (by omega)
  · by_cases h2 : 0 < (blinkEnds x y missing).length
    · have he : blinkE (blinkEnds x y missing) i
          = (((blinkEnds x y missing).getLastD 0 : ℕ) : ℤ) := by
        simp [blinkE, h1, h2]
      have hemem : (blinkEnds x y missing).getLastD 0 ∈ blinkEnds x y missing :=
        getLastD_mem _ _ (by intro hnil; rw [hnil] at h2; simp at h2)
      have heb := blinkEnds_mem_bound x y missing _ hemem
      set e := (blinkEnds x y missing).getLastD 0 with hetag
      have hse : s ≤ e := by
        rw [he] at hguard'
        omega
      have hpe : pyGet time (blinkE (blinkEnds x y missing) i) = time.getD e 0 := by
        rw [he]; exact pyGet_natCast time e
      rw [hps, hpe]
      exact sorted_le_getD hsort hse (by omega)
    · exfalso
      have he : blinkE (blinkEnds x y missing) i = -1 := by
        simp [blinkE, h1, h2]
      rw [he] at hguard'
      omega

/-! ## Facts about the fixation detector -/

/-- `fixStep` preserves the guard invariant of emitted fixation records:
duration is end minus start, and at least `mindur`. -/
theorem fixStep_inv (time : List ℚ) (maxdist mindur : ℚ) (x y : List (Option ℚ))
    (st : ℕ × Bool × List ℚ × List (FixRec ℚ)) (i : ℕ)
    (hst : ∀ r ∈ st.2.2.2, mindur ≤ r.2.2.1 ∧ r.2.2.1 = r.2.1 - r.1) :
    ∀ r ∈ (fixStep time maxdist mindur x y st i).2.2.2,
      mindur ≤ r.2.2.1 ∧ r.2.2.1 = r.2.1 - r.1 := by
  unfold fixStep
  dsimp only
  split_ifs with h1 h2 h3 h4
  · exact hst
  · intro r hr
    rcases List.mem_append.mp hr with h | h
    · exact hst r h
    · simp only [List.mem_singleton] at h
      subst h
      exact ⟨h3, rfl⟩
  · exact hst
  · exact hst
  · exact hst

/-- Every fixation end record of a successful `fixation_detection` call comes
from the scanning loop on some pair of NaN-aware coordinate lists. -/
theorem fixation_detection_ok {x y time : List ℚ} {missing maxdist mindur : ℚ}
    {hm : Option ℤ} {S : List ℚ} {E : List (FixRec ℚ)}
    (h : fixation_detection x y time missing maxdist mindur hm = .ok (S, E)) :
    ∃ xo yo : List (Option ℚ),
      E = ((List.range' 1 (xo.length - 1)).foldl (fixStep time maxdist mindur xo yo)
        (0, false, [], [])).2.2.2 := by
  unfold fixation_detection at h
  dsimp only at h
  split at h
  · exact Except.noConfusion h
  · rename_i xy heq
    simp only [Except.ok.injEq, Prod.mk.injEq] at h
    exact ⟨xy.1, xy.2, h.2.symm⟩

/-- Every emitted fixation end record satisfies the duration guard. -/
theorem fixation_end_min_duration (x y time : List ℚ) (missing maxdist mindur : ℚ)
    (hm : Option ℤ) (S : List ℚ) (E : List (FixRec ℚ))
    (h : fixation_detection x y time missing maxdist mindur hm = .ok (S, E)) :
    ∀ r ∈ E, mindur ≤ r.2.2.1 ∧ r.2.2.1 = r.2.1 - r.1 := by
  obtain ⟨xo, yo, hE⟩ := fixation_detection_ok h
  rw [hE]
  exact foldl_inv _ _ (fun st i hst => fixStep_inv time maxdist mindur xo yo st i hst)
    _ _ (by intro r hr; simp at hr)

/-! ## Facts about the saccade detector -/

/-- `sacLoop` preserves the guard invariant of emitted saccade records. -/
theorem sacLoop_inv (x y : List (Option ℝ)) (time : List ℝ)
    (vel acc : List (Option ℝ)) (minlen maxvel maxacc : ℝ) :
    ∀ (fuel t0i : ℕ) (st : List ℝ × List SacRec),
      (∀ r ∈ st.2, minlen ≤ r.2.2.1 ∧ r.2.2.1 = r.2.1 - r.1) →
      ∀ r ∈ (sacLoop x y time vel acc minlen maxvel maxacc fuel t0i st).2,
        minlen ≤ r.2.2.1 ∧ r.2.2.1 = r.2.1 - r.1 := by
  intro fuel
  induction fuel with
  | zero => intro t0i st hst; simpa [sacLoop] using hst
  | succ n ih =>
    intro t0i st hst r hr
    rw [sacLoop] at hr
    simp only at hr
    split at hr
    · exact hst r hr
    · split at hr
      · exact hst r hr
      · split at hr
        · refine ih _ _ ?_ r hr
          intro q hq
          rcases List.mem_append.mp hq with h | h
          · exact hst q h
          · simp only [List.mem_singleton] at h
            subst h
            exact ⟨by assumption, rfl⟩
        · refine ih _ _ ?_ r hr
          intro q hq
          exact hst q hq

/-- Every saccade end-record list of a successful `saccade_detection` call is
produced by `sacLoop` on some velocity/acceleration profiles. -/
theorem saccade_detection_ok {x y time : List ℝ}
    {missing minlen maxvel maxacc : ℝ} {hm : Option ℤ}
    {S : List ℝ} {E : List SacRec}
    (h : saccade_detection x y time missing minlen maxvel maxacc hm = .ok (S, E)) :
    ∃ (xo yo vel acc : List (Option ℝ)),
      E = (sacLoop xo yo time vel acc minlen maxvel maxacc (time.length + 1) 0
        ([], [])).2 := by
  unfold saccade_detection at h
  dsimp only at h
  split at h
  · exact Except.noConfusion h
  · rename_i xy heq
    simp only [Except.ok.injEq] at h
    have h2 := congrArg Prod.snd h
    exact ⟨xy.1, xy.2, _, _, h2.symm⟩

/-- Every emitted saccade end record satisfies the duration guard. -/
theorem saccade_end_min_duration (x y time : List ℝ)
    (missing minlen maxvel maxacc : ℝ) (hm : Option ℤ)
    (S : List ℝ) (E : List SacRec)
    (h : saccade_detection x y time missing minlen maxvel maxacc hm = .ok (S, E)) :
    ∀ r ∈ E, minlen ≤ r.2.2.1 ∧ r.2.2.1 = r.2.1 - r.1 := by
  obtain ⟨xo, yo, vel, acc, hE⟩ := saccade_detection_ok h
  rw [hE]
  exact sacLoop_inv xo yo time vel acc minlen maxvel maxacc _ _ _
    (by intro r hr; simp at hr)

/-! ## Claim C1 -/

/-- C1 counterexample: with non-decreasing (here constant) timestamps
`[0,0,0,0]` and configured minimum 2, `blink_detection` emits the end record
`(0, 0, 0)`: the missing run spans 3 samples (meeting the index-length
guard `e - s >= minlen`), but the recorded duration `time[e] - time[s] = 0`
is below the configured minimum 2, refuting
"every end-record satisfies duration >= the configured minimum". -/
theorem blink_duration_below_minlen_cex :
    (blink_detection [1, 0, 0, 1] [1, 0, 0, 1] [0, 0, 0, 0] 0 2).2 = [(0, 0, 0)] ∧
    ¬ ((2 : ℚ) ≤ 0) := by
  constructor
  · norm_num [blink_detection, blinkStarts, blinkEnds, blinkMask, blinkE, npwhere,
      npdiff, pyGet, List.range_succ]
    decide
  · decide

/-- C1 (amended): for every sample stream with non-decreasing timestamps,
index-aligned arrays and non-negative configured minima: every fixation and
saccade end record has `duration = end_time - start_time ≥` the configured
minimum (hence `end_time ≥ start_time`), and candidates failing the guard
are never emitted; every blink end record has `end_time ≥ start_time` and
`duration = end_time - start_time`, but the blink guard is the sample-index
difference `e - s ≥ minlen`, so the recorded time-difference duration can be
below `minlen` (see the counterexample). -/
theorem detectors_emitted_records_meet_guards
    (xq yq tq : List ℚ) (missingB : ℚ) (minlenB : ℤ)
    (xf yf tf : List ℚ) (missingF maxdist mindur : ℚ) (hmF : Option ℤ)
    (xr yr tr : List ℝ) (missingS minlenS maxvel maxacc : ℝ) (hmS : Option ℤ)
    (hB : 0 ≤ minlenB) (hsort : tq.Sorted (· ≤ ·))
    (hxl : xq.length = tq.length) (hyl : yq.length = tq.length)
    (hF : 0 ≤ mindur) (hS : 0 ≤ minlenS) :
    (∀ r ∈ (blink_detection xq yq tq missingB minlenB).2,
        r.1 ≤ r.2.1 ∧ r.2.2 = r.2.1 - r.1) ∧
    (∀ S E, fixation_detection xf yf tf missingF maxdist mindur hmF = .ok (S, E) →
        ∀ r ∈ E, mindur ≤ r.2.2.1 ∧ r.1 ≤ r.2.1 ∧ r.2.2.1 = r.2.1 - r.1) ∧
    (∀ S E, saccade_detection xr yr tr missingS minlenS maxvel maxacc hmS = .ok (S, E) →
        ∀ r ∈ E, minlenS ≤ r.2.2.1 ∧ r.1 ≤ r.2.1 ∧ r.2.2.1 = r.2.1 - r.1) := by
  refine ⟨blink_end_ge_start _ _ _ _ _ hB hsort hxl hyl, ?_, ?_⟩
  · intro S E hok r hr
    obtain ⟨hd, he⟩ := fixation_end_min_duration _ _ _ _ _ _ _ _ _ hok r hr
    refine ⟨hd, ?_, he⟩
    have : (0 : ℚ) ≤ r.2.1 - r.1 := le_trans hF (he ▸ hd)
    linarith
  · intro S E hok r hr
    obtain ⟨hd, he⟩ := saccade_end_min_duration _ _ _ _ _ _ _ _ _ _ hok r hr
    refine ⟨hd, ?_, he⟩
    have : (0 : ℝ) ≤ r.2.1 - r.1 := le_trans hS (he ▸ hd)
    linarith

/-- C1 witness: the amended guarantee instantiated on a concrete stream. -/
theorem detectors_emitted_records_meet_guards_witness :
    (∀ r ∈ (blink_detection [1, 0, 1] [1, 0, 1] [0, 1, 2] 0 2).2,
        r.1 ≤ r.2.1 ∧ r.2.2 = r.2.1 - r.1) ∧
    (∀ S E, fixation_detection [5, 5] [5, 5] [0, 10] 0 25 50 none = .ok (S, E) →
        ∀ r ∈ E, (50 : ℚ) ≤ r.2.2.1 ∧ r.1 ≤ r.2.1 ∧ r.2.2.1 = r.2.1 - r.1) ∧
    (∀ S E, saccade_detection [1, 2] [1, 2] [0, 10] 0 0 40 340 none = .ok (S, E) →
        ∀ r ∈ E, (0 : ℝ) ≤ r.2.2.1 ∧ r.1 ≤ r.2.1 ∧ r.2.2.1 = r.2.1 - r.1) :=
  detectors_emitted_records_meet_guards
    [1, 0, 1] [1, 0, 1] [0, 1, 2] 0 2
    [5, 5] [5, 5] [0, 10] 0 25 50 none
    [1, 2] [1, 2] [0, 10] 0 0 40 340 none
    (by decide) (by decide) (by decide) (by decide) (by decide) (le_refl 0)

/-! ## Claim C4 -/

/-- C4 counterexample: the stream `x = y = [1, 0, 1]` has exactly one rising
edge in its missing mask, but with `minlen = 10` the provisional-starts list
returned by `blink_detection` is empty: the starts list does not contain one
entry per rising edge and is filtered by the minimum-length check. -/
theorem blink_starts_filtered_cex :
    (blinkStarts [1, 0, 1] [1, 0, 1] 0).length = 1 ∧
    (blink_detection [1, 0, 1] [1, 0, 1] [0, 1, 2] 0 10).1 = [] := by
  decide

/-- C4 (amended): in `blink_detection` the provisional-starts list and the
end-record list are appended in lockstep — an entry is added to both exactly
when a run passes the minimum-length check — so the two returned lists
always have equal length. -/
theorem blink_starts_ends_equal_length (x y time : List ℚ) (missing : ℚ)
    (minlen : ℤ) :
    (blink_detection x y time missing minlen).1.length
      = (blink_detection x y time missing minlen).2.length := by
  rw [blink_detection_eq]
  simp

/-! ## Claim C3 -/

theorem npdiff_cons_cons (x y : ℤ) (r : List ℤ) :
    npdiff (x :: y :: r) = (y - x) :: npdiff (y :: r) := rfl

theorem npwhere_cons {α : Type} (p : α → Bool) (a : α) (l : List α) :
    npwhere p (a :: l) = (if p a then [0] else []) ++ (npwhere p l).map (· + 1) := rfl

theorem npdiff_replicate (c : ℕ) (z : ℤ) :
    npdiff (List.replicate c z) = List.replicate (c - 1) 0 := by
  induction c with
  | zero => rfl
  | succ n ih =>
    cases n with
    | zero => rfl
    | succ k =>
      have h1 : List.replicate (k + 1 + 1) z = z :: List.replicate (k + 1) z :=
        List.replicate_succ z (k + 1)
      have h2 : List.replicate (k + 1) z = z :: List.replicate k z :=
        List.replicate_succ z k
      rw [h1, h2, npdiff_cons_cons, ← h2, ih]
      simp [List.replicate_succ]

theorem npdiff_replicate_cons (a : ℕ) (xv b : ℤ) (t : List ℤ) :
    npdiff (List.replicate (a + 1) xv ++ b :: t)
      = List.replicate a 0 ++ (b - xv) :: npdiff (b :: t) := by
  induction a with
  | zero => rfl
  | succ n ih =>
    have h1 : List.replicate (n + 1 + 1) xv ++ b :: t
        = xv :: (List.replicate (n + 1) xv ++ b :: t) := by
      rw [List.replicate_succ, List.cons_append]
    have h2 : List.replicate (n + 1) xv ++ b :: t
        = xv :: (List.replicate n xv ++ b :: t) := by
      rw [List.replicate_succ, List.cons_append]
    rw [h1, h2, npdiff_cons_cons, ← h2, ih]
    simp [List.replicate_succ]

theorem map_add_add (L : List ℕ) (a b : ℕ) :
    (L.map (· + a)).map (· + b) = L.map (· + (a + b)) := by
  rw [List.map_map]
  congr 1
  funext k
  simp only [Function.comp_apply]
  omega

theorem npwhere_append {α : Type} (p : α → Bool) (l1 l2 : List α) :
    npwhere p (l1 ++ l2) = npwhere p l1 ++ (npwhere p l2).map (· + l1.length) := by
  induction l1 with
  | nil => simp [npwhere]
  | cons a t ih =>
    rw [List.cons_append, npwhere_cons, npwhere_cons, ih, List.map_append, map_add_add]
    simp [List.append_assoc]

theorem npwhere_replicate_false {α : Type} (p : α → Bool) (k : ℕ) (v : α)
    (h : p v = false) : npwhere p (List.replicate k v) = [] := by
  induction k with
  | zero => rfl
  | succ n ih => simp [List.replicate_succ, npwhere_cons, h, ih]

/-- The edge positions of the single-run first-difference pattern. -/
theorem npwhere_single_run (q : ℤ → Bool) (Lp Kp : ℕ) (h0 : q 0 = false) :
    npwhere q (List.replicate 9 (0 : ℤ)
        ++ (1 : ℤ) :: (List.replicate Lp (0 : ℤ) ++ (-1 : ℤ) :: List.replicate Kp (0 : ℤ)))
      = (if q 1 then [9] else []) ++ (if q (-1) then [10 + Lp] else []) := by
  rw [npwhere_append, npwhere_replicate_false q 9 0 h0, npwhere_cons, npwhere_append,
    npwhere_replicate_false q Lp 0 h0, npwhere_cons,
    npwhere_replicate_false q Kp 0 h0]
  cases hq1 : q 1 <;> cases hqm : q (-1) <;>
    simp [hq1, hqm, List.length_replicate] <;> omega

theorem blinkMask_single_run (L K : ℕ) (v m : ℚ) (hvm : v ≠ m) :
    blinkMask (List.replicate 10 v ++ List.replicate L m ++ List.replicate K v)
        (List.replicate 10 v ++ List.replicate L m ++ List.replicate K v) m
      = List.replicate 10 0 ++ List.replicate L 1 ++ List.replicate K 0 := by
  unfold blinkMask
  rw [List.zipWith_same]
  simp [List.map_append, List.map_replicate, hvm]

/-- The single-run first difference. -/
theorem npdiff_single_run (Lp Kp : ℕ) :
    npdiff (List.replicate 10 (0 : ℤ) ++ List.replicate (Lp + 1) (1 : ℤ)
        ++ List.replicate (Kp + 1) (0 : ℤ))
      = List.replicate 9 (0 : ℤ)
        ++ (1 : ℤ) :: (List.replicate Lp (0 : ℤ) ++ (-1 : ℤ) :: List.replicate Kp (0 : ℤ)) := by
  have hmid : List.replicate (Lp + 1) (1 : ℤ) ++ List.replicate (Kp + 1) (0 : ℤ)
      = (1 : ℤ) :: (List.replicate Lp (1 : ℤ) ++ (0 : ℤ) :: List.replicate Kp (0 : ℤ)) := by
    rw [List.replicate_succ (0 : ℤ) Kp, List.replicate_succ (1 : ℤ) Lp]
    simp
  have h10 : List.replicate 10 (0 : ℤ) = List.replicate (9 + 1) (0 : ℤ) := rfl
  rw [List.append_assoc, hmid, h10, npdiff_replicate_cons]
  have hrest : npdiff ((1 : ℤ) :: (List.replicate Lp (1 : ℤ) ++ (0 : ℤ) :: List.replicate Kp 0))
      = List.replicate Lp 0 ++ (-1 : ℤ) :: npdiff ((0 : ℤ) :: List.replicate Kp 0) := by
    have h3 : (1 : ℤ) :: (List.replicate Lp (1 : ℤ) ++ (0 : ℤ) :: List.replicate Kp 0)
        = List.replicate (Lp + 1) (1 : ℤ) ++ (0 : ℤ) :: List.replicate Kp 0 := by
      rw [List.replicate_succ, List.cons_append]
    rw [h3, npdiff_replicate_cons]
    norm_num
  have hlast : npdiff ((0 : ℤ) :: List.replicate Kp 0) = List.replicate Kp 0 := by
    have h4 : (0 : ℤ) :: List.replicate Kp (0 : ℤ) = List.replicate (Kp + 1) (0 : ℤ) :=
      (List.replicate_succ 0 Kp).symm
    rw [h4, npdiff_replicate]
    simp
  rw [hrest, hlast]
  norm_num

theorem blink_single_run_edges (L K : ℕ) (v m : ℚ) (hL : 1 ≤ L) (hK : 1 ≤ K)
    (hvm : v ≠ m) :
    blinkStarts (List.replicate 10 v ++ List.replicate L m ++ List.replicate K v)
        (List.replicate 10 v ++ List.replicate L m ++ List.replicate K v) m = [10] ∧
    blinkEnds (List.replicate 10 v ++ List.replicate L m ++ List.replicate K v)
        (List.replicate 10 v ++ List.replicate L m ++ List.replicate K v) m
      = [10 + L] := by
  obtain ⟨Lp, rfl⟩ : ∃ Lp, L = Lp + 1 := ⟨L - 1, by omega⟩
  obtain ⟨Kp, rfl⟩ : ∃ Kp, K = Kp + 1 := ⟨K - 1, by omega⟩
  have hmask := blinkMask_single_run (Lp + 1) (Kp + 1) v m hvm
  have hdiff := npdiff_single_run Lp Kp
  constructor
  · unfold blinkStarts
    rw [hmask, hdiff, npwhere_single_run _ _ _ (by decide)]
    norm_num
  · unfold blinkEnds
    rw [hmask, hdiff, npwhere_single_run _ _ _ (by decide)]
    norm_num
    omega


theorem range_cast_getD (n j : ℕ) (h : j < n) :
    ((List.range n).map (fun k : ℕ => (k : ℚ))).getD j 0 = (j : ℚ) := by
  have hlen : j < ((List.range n).map (fun k : ℕ => (k : ℚ))).length := by simp [h]
  rw [List.getD_eq_getElem _ _ hlen]
  simp

/-- `blink_detection` when the edge scan finds exactly one rising edge `a`
and one falling edge `b`. -/
theorem blink_detection_single (x y time : List ℚ) (missing : ℚ) (minlen : ℤ)
    (a b : ℕ) (hst : blinkStarts x y missing = [a]) (hen : blinkEnds x y missing = [b]) :
    blink_detection x y time missing minlen =
      if minlen ≤ (b : ℤ) - (a : ℤ) then
        ([pyGet time ((a : ℕ) : ℤ)],
         [(pyGet time ((a : ℕ) : ℤ), pyGet time ((b : ℕ) : ℤ),
           pyGet time ((b : ℕ) : ℤ) - pyGet time ((a : ℕ) : ℤ))])
      else ([], []) := by
  rw [blink_detection_eq, hst, hen]
  have hb : blinkE [b] 0 = ((b : ℕ) : ℤ) := by simp [blinkE]
  have hr1 : List.range 1 = [0] := rfl
  have ha0 : ([a] : List ℕ)[0]?.getD 0 = a := rfl
  by_cases h : minlen ≤ (b : ℤ) - (a : ℤ)
  · rw [if_pos h]
    simp [hr1, List.filter_cons, hb, ha0, h]
  · rw [if_neg h]
    simp [hr1, List.filter_cons, hb, ha0, h]

/-- C3 (amended): for every stream whose only missing samples form a single
run of length `L` at index positions `[10, 10+L)` (with at least one valid
sample on each side, and index-valued timestamps), `blink_detection` returns
exactly one end record `(10, 10+L, L)` when `L ≥ min_len` — the recorded end
timestamp is `time[10+L]`, the first valid sample after the run, and the
duration is `L`, not `10+L-1` and `L-1` — and returns no records when
`L < min_len`. -/
theorem blink_single_run (L K : ℕ) (v m : ℚ) (minlen : ℤ)
    (hL : 1 ≤ L) (hK : 1 ≤ K) (hvm : v ≠ m) :
    (minlen ≤ (L : ℤ) →
      blink_detection (List.replicate 10 v ++ List.replicate L m ++ List.replicate K v)
        (List.replicate 10 v ++ List.replicate L m ++ List.replicate K v)
        ((List.range (10 + L + K)).map (fun j : ℕ => (j : ℚ))) m minlen
        = ([(10 : ℚ)], [((10 : ℚ), 10 + (L : ℚ), (L : ℚ))])) ∧
    ((L : ℤ) < minlen →
      blink_detection (List.replicate 10 v ++ List.replicate L m ++ List.replicate K v)
        (List.replicate 10 v ++ List.replicate L m ++ List.replicate K v)
        ((List.range (10 + L + K)).map (fun j : ℕ => (j : ℚ))) m minlen
        = ([], [])) := by
  obtain ⟨hst, hen⟩ := blink_single_run_edges L K v m hL hK hvm
  have hmain := blink_detection_single _ _
    ((List.range (10 + L + K)).map (fun j : ℕ => (j : ℚ))) m minlen 10 (10 + L) hst hen
  have hsub : ((10 + L : ℕ) : ℤ) - ((10 : ℕ) : ℤ) = (L : ℤ) := by
    push_cast
    ring
  have hg10 : pyGet ((List.range (10 + L + K)).map (fun j : ℕ => (j : ℚ))) (((10 : ℕ)) : ℤ)
      = (10 : ℚ) := by
    rw [pyGet_natCast, range_cast_getD _ _ (by omega)]
    norm_num
  have hg10L : pyGet ((List.range (10 + L + K)).map (fun j : ℕ => (j : ℚ))) ((10 + L : ℕ) : ℤ)
      = 10 + (L : ℚ) := by
    rw [pyGet_natCast, range_cast_getD _ _ (by omega)]
    push_cast
    ring
  rw [hsub] at hmain
  constructor
  · intro hmin
    rw [hmain, if_pos hmin, hg10, hg10L]
    norm_num
  · intro hmin
    rw [hmain, if_neg (by omega)]

/-- C3 counterexample: a single missing run of length `L = 2` at positions
`[10, 12)` with index-valued timestamps and `min_len = 2` yields the end
record `(10, 12, 2)` — end index `10 + L` (the first valid sample after the
run) and duration `L` — not the claimed `(10, 10+L-1, L-1) = (10, 11, 1)`. -/
theorem blink_single_run_off_by_one_cex :
    (blink_detection
      [5, 5, 5, 5, 5, 5, 5, 5, 5, 5, 0, 0, 5]
      [5, 5, 5, 5, 5, 5, 5, 5, 5, 5, 0, 0, 5]
      [0, 1, 2, 3, 4, 5, 6, 7, 8, 9, 10, 11, 12] 0 2).2 = [(10, 12, 2)] ∧
    ((10 : ℚ), (12 : ℚ), (2 : ℚ)) ≠ ((10 : ℚ), (11 : ℚ), (1 : ℚ)) := by
  constructor
  · norm_num [blink_detection, blinkStarts, blinkEnds, blinkMask, blinkE, npwhere,
      npdiff, pyGet, List.range_succ]
    simp only [show (Int.toNat 12) = 12 from rfl]
    norm_num [List.getElem_cons_zero, List.getElem_cons_succ]
  · decide

/-- C3 witness: the amended statement instantiated at `L = 3`, `K = 2`,
`min_len = 2`. -/
theorem blink_single_run_witness :
    ((2 : ℤ) ≤ ((3 : ℕ) : ℤ) →
      blink_detection
        (List.replicate 10 (5 : ℚ) ++ List.replicate 3 0 ++ List.replicate 2 5)
        (List.replicate 10 (5 : ℚ) ++ List.replicate 3 0 ++ List.replicate 2 5)
        ((List.range (10 + 3 + 2)).map (fun j : ℕ => (j : ℚ))) 0 2
        = ([(10 : ℚ)], [((10 : ℚ), 10 + ((3 : ℕ) : ℚ), ((3 : ℕ) : ℚ))])) ∧
    (((3 : ℕ) : ℤ) < 2 →
      blink_detection
        (List.replicate 10 (5 : ℚ) ++ List.replicate 3 0 ++ List.replicate 2 5)
        (List.replicate 10 (5 : ℚ) ++ List.replicate 3 0 ++ List.replicate 2 5)
        ((List.range (10 + 3 + 2)).map (fun j : ℕ => (j : ℚ))) 0 2
        = ([], [])) :=
  blink_single_run 3 2 5 0 2 (by decide) (by decide) (by decide)

/-! ## Claim C5: edge pairing of the blink detector -/

theorem int_default_eq : (default : ℤ) = 0 := rfl

theorem blinkStarts_eq_maskStarts (x y : List ℚ) (missing : ℚ) :
    blinkStarts x y missing = maskStarts (blinkMask x y missing) := rfl

theorem blinkEnds_eq_maskEnds (x y : List ℚ) (missing : ℚ) :
    blinkEnds x y missing = maskEnds (blinkMask x y missing) := rfl

theorem npdiff_length (l : List ℤ) : (npdiff l).length = l.length - 1 := by
  simp [npdiff]

theorem npdiff_getD (l : List ℤ) (j : ℕ) (h : j + 1 < l.length) :
    (npdiff l).getD j 0 = l.getD (j + 1) 0 - l.getD j 0 := by
  have hj : j < (npdiff l).length := by rw [npdiff_length]; omega
  rw [List.getD_eq_getElem _ _ hj, List.getD_eq_getElem _ _ h,
    List.getD_eq_getElem _ _ (by omega : j < l.length)]
  unfold npdiff
  rw [List.getElem_zipWith]
  congr 1
  rw [List.getElem_tail]

/-- `blinkMask` entries are 0 or 1 (out-of-range default reads are 0). -/
theorem blinkMask_getD_zero_one (x y : List ℚ) (missing : ℚ) (j : ℕ) :
    (blinkMask x y missing).getD j 0 = 0 ∨ (blinkMask x y missing).getD j 0 = 1 := by
  by_cases hj : j < (blinkMask x y missing).length
  · rw [List.getD_eq_getElem _ _ hj]
    unfold blinkMask
    simp only [List.getElem_zipWith]
    split <;> simp
  · rw [List.getD_eq_default]
    · left; rfl
    · omega

/-- Membership in the rising-edge list of a 0/1 mask. -/
theorem mem_maskStarts (m : List ℤ)
    (h01 : ∀ j, m.getD j 0 = 0 ∨ m.getD j 0 = 1) (a : ℕ) :
    a ∈ maskStarts m ↔
      1 ≤ a ∧ a < m.length ∧ m.getD (a - 1) 0 = 0 ∧ m.getD a 0 = 1 := by
  unfold maskStarts
  simp only [List.mem_map]
  constructor
  · rintro ⟨w, hw, rfl⟩
    rw [mem_npwhere] at hw
    obtain ⟨hwlen, hwval⟩ := hw
    rw [int_default_eq] at hwval
    have hw1 : w + 1 < m.length := by
      have := npdiff_length m
      omega
    rw [npdiff_getD m w hw1] at hwval
    simp only [decide_eq_true_eq] at hwval
    have ha := h01 w
    have hb := h01 (w + 1)
    refine ⟨by omega, hw1, ?_, ?_⟩
    · have hww : w + 1 - 1 = w := by omega
      rw [hww]
      omega
    · omega
  · rintro ⟨ha1, halen, hprev, hcur⟩
    refine ⟨a - 1, ?_, by omega⟩
    rw [mem_npwhere]
    rw [int_default_eq]
    have hw1 : a - 1 + 1 = a := by omega
    constructor
    · rw [npdiff_length]; omega
    · rw [npdiff_getD m (a - 1) (by omega)]
      simp only [decide_eq_true_eq]
      rw [hw1, hprev, hcur]
      norm_num

/-- Membership in the falling-edge list of a 0/1 mask. -/
theorem mem_maskEnds (m : List ℤ)
    (h01 : ∀ j, m.getD j 0 = 0 ∨ m.getD j 0 = 1) (b : ℕ) :
    b ∈ maskEnds m ↔
      1 ≤ b ∧ b < m.length ∧ m.getD (b - 1) 0 = 1 ∧ m.getD b 0 = 0 := by
  unfold maskEnds
  simp only [List.mem_map]
  constructor
  · rintro ⟨w, hw, rfl⟩
    rw [mem_npwhere] at hw
    obtain ⟨hwlen, hwval⟩ := hw
    rw [int_default_eq] at hwval
    have hw1 : w + 1 < m.length := by
      have := npdiff_length m
      omega
    rw [npdiff_getD m w hw1] at hwval
    simp only [decide_eq_true_eq] at hwval
    have ha := h01 w
    have hb := h01 (w + 1)
    refine ⟨by omega, hw1, ?_, ?_⟩
    · have hww : w + 1 - 1 = w := by omega
      rw [hww]
      omega
    · omega
  · rintro ⟨hb1, hblen, hprev, hcur⟩
    refine ⟨b - 1, ?_, by omega⟩
    rw [mem_npwhere]
    rw [int_default_eq]
    have hw1 : b - 1 + 1 = b := by omega
    constructor
    · rw [npdiff_length]; omega
    · rw [npdiff_getD m (b - 1) (by omega)]
      simp only [decide_eq_true_eq]
      rw [hw1, hprev, hcur]
      norm_num

theorem maskStarts_cons (a b : ℤ) (r : List ℤ) :
    maskStarts (a :: b :: r)
      = (if b - a = 1 then [1] else []) ++ (maskStarts (b :: r)).map (· + 1) := by
  unfold maskStarts
  rw [npdiff_cons_cons, npwhere_cons, List.map_append]
  by_cases h : b - a = 1 <;> simp [h, List.map_map]

theorem maskEnds_cons (a b : ℤ) (r : List ℤ) :
    maskEnds (a :: b :: r)
      = (if b - a = -1 then [1] else []) ++ (maskEnds (b :: r)).map (· + 1) := by
  unfold maskEnds
  rw [npdiff_cons_cons, npwhere_cons, List.map_append]
  by_cases h : b - a = -1 <;> simp [h, List.map_map]

/-- The balance invariant of the edge scan: up to any in-range position `j`,
the number of rising edges at positions `≤ j` minus the number of falling
edges there is determined by the mask values at `j` and at `0`. -/
theorem edge_balance :
    ∀ (m : List ℤ), (∀ j, m.getD j 0 = 0 ∨ m.getD j 0 = 1) →
    ∀ j, j < m.length →
      (((maskStarts m).countP (fun s => decide (s ≤ j)) : ℤ)
        - ((maskEnds m).countP (fun e => decide (e ≤ j)) : ℤ))
      = (if m.getD j 0 = 1 then 1 else 0) - (if m.getD 0 0 = 1 then 1 else 0) := by
  intro m
  induction m with
  | nil => intro _ j hj; simp at hj
  | cons a t ih =>
    intro h01 j hj
    cases t with
    | nil =>
      have hj0 : j = 0 := by simpa using hj
      subst hj0
      simp [maskStarts, maskEnds, npdiff, npwhere]
    | cons b r =>
      have h01t : ∀ k, ((b :: r) : List ℤ).getD k 0 = 0 ∨ ((b :: r) : List ℤ).getD k 0 = 1 := by
        intro k
        have := h01 (k + 1)
        simpa using this
      rw [maskStarts_cons, maskEnds_cons]
      cases j with
      | zero =>
        have hS : ((if b - a = 1 then [1] else [])
            ++ (maskStarts (b :: r)).map (· + 1)).countP (fun s => decide (s ≤ 0)) = 0 := by
          rw [List.countP_eq_zero]
          intro s hs
          rcases List.mem_append.mp hs with h | h
          · split at h <;> simp_all
          · obtain ⟨u, _, rfl⟩ := List.mem_map.mp h
            simp
        have hE : ((if b - a = -1 then [1] else [])
            ++ (maskEnds (b :: r)).map (· + 1)).countP (fun e => decide (e ≤ 0)) = 0 := by
          rw [List.countP_eq_zero]
          intro s hs
          rcases List.mem_append.mp hs with h | h
          · split at h <;> simp_all
          · obtain ⟨u, _, rfl⟩ := List.mem_map.mp h
            simp
        rw [hS, hE]
        simp
      | succ jp =>
        have hjp : jp < ((b :: r) : List ℤ).length := by simpa using hj
        have hbal := ih h01t jp hjp
        have hfun : ∀ (L : List ℕ),
            (L.map (· + 1)).countP (fun s => decide (s ≤ jp + 1))
              = L.countP (fun s => decide (s ≤ jp)) := by
          intro L
          rw [List.countP_map]
          congr 1
          funext s
          simp only [Function.comp_apply]
          rw [decide_eq_decide]
          omega
        rw [List.countP_append, List.countP_append, hfun, hfun]
        have hpre1 : (if b - a = 1 then [1] else []).countP (fun s => decide (s ≤ jp + 1))
            = if b - a = 1 then 1 else 0 := by
          split <;> simp
        have hpre2 : (if b - a = -1 then [1] else []).countP (fun e => decide (e ≤ jp + 1))
            = if b - a = -1 then 1 else 0 := by
          split <;> simp
        rw [hpre1, hpre2]
        have hga : ((a :: b :: r) : List ℤ).getD 0 0 = a := rfl
        have hgb : ((b :: r) : List ℤ).getD 0 0 = b := rfl
        have hgj : ((a :: b :: r) : List ℤ).getD (jp + 1) 0 = ((b :: r) : List ℤ).getD jp 0 := rfl
        rw [hga, hgj]
        rw [hgb] at hbal
        have ha01 := h01 0
        have hb01 := h01 1
        rw [hga] at ha01
        have hgb2 : ((a :: b :: r) : List ℤ).getD 1 0 = b := rfl
        rw [hgb2] at hb01
        have hkey : (((if b - a = 1 then (1 : ℕ) else 0) : ℕ) : ℤ)
              - (((if b - a = -1 then (1 : ℕ) else 0) : ℕ) : ℤ)
            = (if b = 1 then (1 : ℤ) else 0) - (if a = 1 then (1 : ℤ) else 0) := by
          rcases ha01 with ha | ha <;> rcases hb01 with hb | hb <;>
            subst ha <;> subst hb <;> norm_num
        push_cast
        push_cast at hbal hkey
        linarith [hbal, hkey]

theorem maskStarts_sorted (m : List ℤ) : (maskStarts m).Sorted (· < ·) := by
  unfold maskStarts
  refine List.Pairwise.map _ ?_ (npwhere_sorted _ _)
  intro a b h
  simpa using h

theorem maskEnds_sorted (m : List ℤ) : (maskEnds m).Sorted (· < ·) := by
  unfold maskEnds
  refine List.Pairwise.map _ ?_ (npwhere_sorted _ _)
  intro a b h
  simpa using h

/-- In a strictly sorted list, at least `i + 1` entries are `≤` the `i`-th. -/
theorem countP_le_getD_ge (l : List ℕ) (hs : l.Sorted (· < ·)) :
    ∀ i, i < l.length → i + 1 ≤ l.countP (fun s => decide (s ≤ l.getD i 0)) := by
  induction l with
  | nil => intro i hi; simp at hi
  | cons x t ih =>
    intro i hi
    obtain ⟨hx, hts⟩ := List.sorted_cons.mp hs
    cases i with
    | zero =>
      have : (x :: t).countP (fun s => decide (s ≤ (x :: t).getD 0 0))
          = t.countP (fun s => decide (s ≤ x)) + 1 := by
        rw [List.countP_cons]
        simp [List.getD_cons_zero]
      omega
    | succ ip =>
      have hip : ip < t.length := by simpa using hi
      have hmem : t.getD ip 0 ∈ t := by
        rw [List.getD_eq_getElem _ _ hip]
        exact List.getElem_mem _
      have hxlt : x < t.getD ip 0 := hx _ hmem
      have hih := ih hts ip hip
      have : (x :: t).countP (fun s => decide (s ≤ (x :: t).getD (ip + 1) 0))
          = t.countP (fun s => decide (s ≤ t.getD ip 0)) + 1 := by
        rw [List.countP_cons, List.getD_cons_succ]
        have hd : decide (x ≤ t.getD ip 0) = true := by
          rw [decide_eq_true_eq]
          exact le_of_lt hxlt
        rw [hd]
        simp
      omega

/-- In a strictly sorted list, at most `i` entries are `<` the `i`-th. -/
theorem countP_lt_getD_le (l : List ℕ) (hs : l.Sorted (· < ·)) :
    ∀ i, i < l.length → l.countP (fun s => decide (s < l.getD i 0)) ≤ i := by
  induction l with
  | nil => intro i hi; simp at hi
  | cons x t ih =>
    intro i hi
    obtain ⟨hx, hts⟩ := List.sorted_cons.mp hs
    cases i with
    | zero =>
      have : (x :: t).countP (fun s => decide (s < (x :: t).getD 0 0)) = 0 := by
        rw [List.countP_eq_zero]
        intro s hsmem
        rcases List.mem_cons.mp hsmem with rfl | h
        · simp [List.getD_cons_zero]
        · have := hx s h
          simp [List.getD_cons_zero]
          omega
      omega
    | succ ip =>
      have hip : ip < t.length := by simpa using hi
      have hih := ih hts ip hip
      have : (x :: t).countP (fun s => decide (s < (x :: t).getD (ip + 1) 0))
          ≤ t.countP (fun s => decide (s < t.getD ip 0)) + 1 := by
        rw [List.countP_cons, List.getD_cons_succ]
        split <;> omega
      omega

/-- A member of a strictly sorted list sits exactly at the index that counts
the smaller members. -/
theorem sorted_getD_index (l : List ℕ) (hs : l.Sorted (· < ·)) :
    ∀ a, a ∈ l →
      l.getD (l.countP (fun s => decide (s < a))) 0 = a ∧
      l.countP (fun s => decide (s < a)) < l.length := by
  induction l with
  | nil => intro a ha; simp at ha
  | cons x t ih =>
    intro a ha
    obtain ⟨hx, hts⟩ := List.sorted_cons.mp hs
    rcases List.mem_cons.mp ha with rfl | hat
    · have h0 : (a :: t).countP (fun s => decide (s < a)) = 0 := by
        rw [List.countP_eq_zero]
        intro s hsmem
        rcases List.mem_cons.mp hsmem with rfl | h
        · simp
        · have := hx s h
          simp
          omega
      rw [h0]
      exact ⟨rfl, by simp⟩
    · have hxa : x < a := hx a hat
      have hcount : (x :: t).countP (fun s => decide (s < a))
          = t.countP (fun s => decide (s < a)) + 1 := by
        rw [List.countP_cons]
        simp [hxa]
      obtain ⟨h1, h2⟩ := ih hts a hat
      rw [hcount]
      refine ⟨?_, by simp; omega⟩
      rw [List.getD_cons_succ]
      exact h1

/-- When the mask does not start inside a run, the `i`-th falling edge lies
strictly after the `i`-th rising edge. -/
theorem maskStarts_lt_maskEnds (m : List ℤ)
    (h01 : ∀ j, m.getD j 0 = 0 ∨ m.getD j 0 = 1) (m0 : m.getD 0 0 = 0) :
    ∀ i, i < (maskStarts m).length → i < (maskEnds m).length →
      (maskStarts m).getD i 0 < (maskEnds m).getD i 0 := by
  intro i hiS hiE
  by_contra hle
  push_neg at hle
  have hEge : i + 1 ≤ (maskEnds m).countP
      (fun s => decide (s ≤ (maskEnds m).getD i 0)) :=
    countP_le_getD_ge (maskEnds m) (maskEnds_sorted m) i hiE
  have hSle := countP_lt_getD_le (maskStarts m) (maskStarts_sorted m) i hiS
  set si := (maskStarts m).getD i 0 with hsi
  set e := (maskEnds m).getD i 0 with he
  have hemem : e ∈ maskEnds m := by
    rw [he, List.getD_eq_getElem _ _ hiE]
    exact List.getElem_mem _
  obtain ⟨he1, helen, heprev, hecur⟩ := (mem_maskEnds m h01 _).mp hemem
  have hbal := edge_balance m h01 e helen
  rw [hecur, m0] at hbal
  norm_num at hbal
  have hcong : (maskStarts m).countP (fun s => decide (s ≤ e))
      = (maskStarts m).countP (fun s => decide (s < e)) := by
    apply List.countP_congr
    intro s hsmem
    obtain ⟨hs1, hslen, hsprev, hscur⟩ := (mem_maskStarts m h01 s).mp hsmem
    have hne : s ≠ e := by
      intro hh
      rw [hh, hecur] at hscur
      omega
    simp only [decide_eq_true_eq]
    omega
  have hmono : (maskStarts m).countP (fun s => decide (s < e))
      ≤ (maskStarts m).countP (fun s => decide (s < si)) := by
    apply List.countP_mono_left
    intro s _ hs
    simp only [decide_eq_true_eq] at hs ⊢
    omega
  omega

/-- Every maximal missing run that is terminated by a valid sample appears as
a matched (rising, falling) pair at a common index, provided the mask does
not start inside a run. -/
theorem maskRun_matched (m : List ℤ)
    (h01 : ∀ j, m.getD j 0 = 0 ∨ m.getD j 0 = 1) (m0 : m.getD 0 0 = 0)
    (a b : ℕ) (ha1 : 1 ≤ a) (hab : a < b) (hblen : b < m.length)
    (hprev : m.getD (a - 1) 0 = 0)
    (hrun : ∀ j, a ≤ j → j < b → m.getD j 0 = 1)
    (hb0 : m.getD b 0 = 0) :
    ∃ k, k < (maskStarts m).length ∧ k < (maskEnds m).length ∧
      (maskStarts m).getD k 0 = a ∧ (maskEnds m).getD k 0 = b := by
  have haS : a ∈ maskStarts m :=
    (mem_maskStarts m h01 a).mpr ⟨ha1, by omega, hprev, hrun a le_rfl hab⟩
  have hbE : b ∈ maskEnds m :=
    (mem_maskEnds m h01 b).mpr
      ⟨by omega, hblen, by
        have := hrun (b - 1) (by omega) (by omega)
        exact this, hb0⟩
  obtain ⟨hSget, hSlt⟩ := sorted_getD_index _ (maskStarts_sorted m) a haS
  obtain ⟨hEget, hElt⟩ := sorted_getD_index _ (maskEnds_sorted m) b hbE
  have hbalA := edge_balance m h01 (a - 1) (by omega)
  rw [hprev, m0] at hbalA
  norm_num at hbalA
  have hSc : (maskStarts m).countP (fun s => decide (s < a))
      = (maskStarts m).countP (fun s => decide (s ≤ a - 1)) := by
    apply List.countP_congr
    intro s _
    simp only [decide_eq_true_eq]
    omega
  have hEc1 : (maskEnds m).countP (fun e => decide (e < b))
      = (maskEnds m).countP (fun e => decide (e ≤ b - 1)) := by
    apply List.countP_congr
    intro e _
    simp only [decide_eq_true_eq]
    omega
  have hEc2 : (maskEnds m).countP (fun e => decide (e ≤ b - 1))
      = (maskEnds m).countP (fun e => decide (e ≤ a - 1)) := by
    apply List.countP_congr
    intro e hemem
    obtain ⟨he1, helen, heprev, hecur⟩ := (mem_maskEnds m h01 e).mp hemem
    simp only [decide_eq_true_eq]
    constructor
    · intro hle
      by_contra hgt
      have hae : a ≤ e := by omega
      have heb : e < b := by omega
      have := hrun e hae heb
      omega
    · intro hle
      omega
  have hkey : (maskStarts m).countP (fun s => decide (s < a))
      = (maskEnds m).countP (fun e => decide (e < b)) := by
    rw [hSc, hEc1, hEc2]
    omega
  exact ⟨_, hSlt, hkey ▸ hElt, hSget, by rw [hkey]; exact hEget⟩

/-- A paired run whose index span passes the guard contributes its end
record to the blink detector's output. -/
theorem blink_record_mem (x y time : List ℚ) (missing : ℚ) (minlen : ℤ) (k : ℕ)
    (hk : k < (blinkStarts x y missing).length)
    (hkE : k < (blinkEnds x y missing).length)
    (hg : minlen ≤ ((blinkEnds x y missing).getD k 0 : ℤ)
      - ((blinkStarts x y missing).getD k 0 : ℤ)) :
    (time.getD ((blinkStarts x y missing).getD k 0) 0,
     time.getD ((blinkEnds x y missing).getD k 0) 0,
     time.getD ((blinkEnds x y missing).getD k 0) 0
       - time.getD ((blinkStarts x y missing).getD k 0) 0)
      ∈ (blink_detection x y time missing minlen).2 := by
  have hbe : blinkE (blinkEnds x y missing) k
      = (((blinkEnds x y missing).getD k 0 : ℕ) : ℤ) := by
    simp [blinkE, hkE]
  rw [blink_detection_eq]
  simp only [List.mem_map]
  refine ⟨k, ?_, ?_⟩
  · rw [List.mem_filter]
    refine ⟨List.mem_range.mpr hk, ?_⟩
    rw [decide_eq_true_eq, hbe]
    exact hg
  · rw [hbe, pyGet_natCast, pyGet_natCast]

/-- C5 counterexample: the stream `x = y = [0,5,0,0,0,0,5]` (missing = 0)
begins with a missing sample.  Its mask has a maximal missing run of length
4 ≥ min_len = 2 at `[2,6)` followed by a valid sample, yet `blink_detection`
emits no end record: the rising edge at 2 is paired index-wise with the
first falling edge, which is at 1, *before* it — refuting "paired ... only
when that falling edge exists after the rising edge", and showing a
qualifying run that yields no end record. -/
theorem blink_mispairing_cex :
    blinkStarts [0, 5, 0, 0, 0, 0, 5] [0, 5, 0, 0, 0, 0, 5] 0 = [2] ∧
    blinkEnds [0, 5, 0, 0, 0, 0, 5] [0, 5, 0, 0, 0, 0, 5] 0 = [1, 6] ∧
    (blink_detection [0, 5, 0, 0, 0, 0, 5] [0, 5, 0, 0, 0, 0, 5]
      [0, 1, 2, 3, 4, 5, 6] 0 2).2 = [] := by
  decide

/-- C5 (amended): `blink_detection` pairs the `i`-th rising edge with the
`i`-th falling edge index-wise, unconditionally.  When the stream does not
begin with a missing sample, every `i`-th falling edge lies strictly after
the `i`-th rising edge, and every maximal missing run of length `≥ min_len`
that is followed by at least one valid sample yields an end record whose end
index lies strictly after its start index. -/
theorem blink_pairing_and_runs (x y time : List ℚ) (missing : ℚ) (minlen : ℤ)
    (m0 : (blinkMask x y missing).getD 0 0 = 0) :
    (∀ i, i < (blinkStarts x y missing).length →
      i < (blinkEnds x y missing).length →
      (blinkStarts x y missing).getD i 0 < (blinkEnds x y missing).getD i 0) ∧
    (∀ a b : ℕ, 1 ≤ a → a < b → b < (blinkMask x y missing).length →
      (blinkMask x y missing).getD (a - 1) 0 = 0 →
      (∀ j, a ≤ j → j < b → (blinkMask x y missing).getD j 0 = 1) →
      (blinkMask x y missing).getD b 0 = 0 →
      minlen ≤ (b : ℤ) - (a : ℤ) →
      (time.getD a 0, time.getD b 0, time.getD b 0 - time.getD a 0)
        ∈ (blink_detection x y time missing minlen).2) := by
  have h01 := blinkMask_getD_zero_one x y missing
  constructor
  · intro i hiS hiE
    exact maskStarts_lt_maskEnds _ h01 m0 i hiS hiE
  · intro a b ha1 hab hblen hprev hrun hb0 hg
    obtain ⟨k, hkS, hkE, hka, hkb⟩ :=
      maskRun_matched _ h01 m0 a b ha1 hab hblen hprev hrun hb0
    have hka2 : (blinkStarts x y missing).getD k 0 = a := hka
    have hkb2 : (blinkEnds x y missing).getD k 0 = b := hkb
    have hrec := blink_record_mem x y time missing minlen k hkS hkE
      (by rw [hka2, hkb2]; exact hg)
    rw [hka2, hkb2] at hrec
    exact hrec

/-- C5 witness: the amended guarantee instantiated on the concrete stream
`x = y = [5, 0, 0, 5]` with its run `[1, 3)` of length 2 = min_len. -/
theorem blink_pairing_and_runs_witness :
    (∀ i, i < (blinkStarts [5, 0, 0, 5] [5, 0, 0, 5] 0).length →
      i < (blinkEnds [5, 0, 0, 5] [5, 0, 0, 5] 0).length →
      (blinkStarts [5, 0, 0, 5] [5, 0, 0, 5] 0).getD i 0
        < (blinkEnds [5, 0, 0, 5] [5, 0, 0, 5] 0).getD i 0) ∧
    (∀ a b : ℕ, 1 ≤ a → a < b → b < (blinkMask [5, 0, 0, 5] [5, 0, 0, 5] 0).length →
      (blinkMask [5, 0, 0, 5] [5, 0, 0, 5] 0).getD (a - 1) 0 = 0 →
      (∀ j, a ≤ j → j < b → (blinkMask [5, 0, 0, 5] [5, 0, 0, 5] 0).getD j 0 = 1) →
      (blinkMask [5, 0, 0, 5] [5, 0, 0, 5] 0).getD b 0 = 0 →
      (2 : ℤ) ≤ (b : ℤ) - (a : ℤ) →
      (([0, 1, 2, 3] : List ℚ).getD a 0, ([0, 1, 2, 3] : List ℚ).getD b 0,
        ([0, 1, 2, 3] : List ℚ).getD b 0 - ([0, 1, 2, 3] : List ℚ).getD a 0)
        ∈ (blink_detection [5, 0, 0, 5] [5, 0, 0, 5] [0, 1, 2, 3] 0 2).2) :=
  blink_pairing_and_runs [5, 0, 0, 5] [5, 0, 0, 5] [0, 1, 2, 3] 0 2 (by decide)

/-! ## Claim C2: fixation detector on constant streams -/

theorem getD_map_some (l : List ℚ) (i : ℕ) (h : i < l.length) :
    (l.map some).getD i none = some (l.getD i 0) := by
  rw [List.getD_eq_getElem _ _ (by simpa using h), List.getD_eq_getElem _ _ h]
  simp

theorem fixDist_some (xo yo : List (Option ℚ)) (si i : ℕ) (a b c d : ℚ)
    (h1 : xo.getD si none = some a) (h2 : xo.getD i none = some b)
    (h3 : yo.getD si none = some c) (h4 : yo.getD i none = some d) :
    fixDist xo yo si i = some ((a - b) * (a - b) + (c - d) * (c - d)) := by
  unfold fixDist
  rw [h1, h2, h3, h4]
  rfl

theorem distLeB_self (mq : ℚ) (h : 0 ≤ mq) (v : ℚ) (hv : v = 0) :
    distLeB v mq = true := by
  subst hv
  unfold distLeB
  rw [decide_eq_true h, decide_eq_true (mul_self_nonneg mq)]
  rfl

/-- A `fixStep` at a sample indistinguishable from the anchor: starts a
fixation when none is open, does nothing otherwise. -/
theorem fixStep_near (time : List ℚ) (maxdist mindur : ℚ)
    (xo yo : List (Option ℚ)) (st : ℕ × Bool × List ℚ × List (FixRec ℚ)) (i : ℕ)
    (hd : fixDist xo yo st.1 i = some 0) (hmaxd : 0 ≤ maxdist) :
    fixStep time maxdist mindur xo yo st i =
      if st.2.1 then st else (i, true, st.2.2.1 ++ [time.getD i 0], st.2.2.2) := by
  have hle : fixDistLe (fixDist xo yo st.1 i) maxdist = true := by
    rw [hd]
    unfold fixDistLe
    exact distLeB_self maxdist hmaxd 0 rfl
  have hgt : fixDistGt (fixDist xo yo st.1 i) maxdist = false := by
    rw [hd]
    show (!distLeB 0 maxdist) = false
    rw [distLeB_self maxdist hmaxd 0 rfl]
    rfl
  unfold fixStep
  dsimp only
  rw [hle, hgt]
  cases hfs : st.2.1 <;> simp [hfs]

/-- A `fixStep` at a sample beyond `maxdist` from the anchor while a
fixation is open: closes it, emitting iff the duration guard passes. -/
theorem fixStep_far (time : List ℚ) (maxdist mindur : ℚ)
    (xo yo : List (Option ℚ)) (st : ℕ × Bool × List ℚ × List (FixRec ℚ)) (i : ℕ)
    (v : ℚ) (hd : fixDist xo yo st.1 i = some v)
    (hv : distLeB v maxdist = false) (hst : st.2.1 = true) :
    fixStep time maxdist mindur xo yo st i =
      if mindur ≤ time.getD (i - 1) 0 - st.2.2.1.getLastD 0 then
        (i, false, st.2.2.1,
          st.2.2.2 ++ [(st.2.2.1.getLastD 0, time.getD (i - 1) 0,
            time.getD (i - 1) 0 - st.2.2.1.getLastD 0,
            xo.getD st.1 none, yo.getD st.1 none)])
      else (i, false, st.2.2.1.dropLast, st.2.2.2) := by
  have hle : fixDistLe (fixDist xo yo st.1 i) maxdist = false := by
    rw [hd]
    unfold fixDistLe
    exact hv
  have hgt : fixDistGt (fixDist xo yo st.1 i) maxdist = true := by
    rw [hd]
    show (!distLeB v maxdist) = true
    rw [hv]
    rfl
  unfold fixStep
  dsimp only
  rw [hle, hgt, hst]
  simp

/-- Scanning a constant-position stretch: after samples `1..j` (all at the
constant position, `j ≤ N - 1`), the state is an open fixation anchored at
sample 1 with one provisional start at `time[1]`. -/
theorem fixLoop_const (time : List ℚ) (maxdist mindur : ℚ)
    (xo yo : List (Option ℚ)) (px py : ℚ) (N : ℕ) (hN : 2 ≤ N)
    (hx : ∀ i, i < N → xo.getD i none = some px)
    (hy : ∀ i, i < N → yo.getD i none = some py)
    (hmaxd : 0 ≤ maxdist) :
    ∀ j, 1 ≤ j → j ≤ N - 1 →
      (List.range' 1 j).foldl (fixStep time maxdist mindur xo yo)
          (0, false, [], [])
        = (1, true, [time.getD 1 0], ([] : List (FixRec ℚ))) := by
  intro j
  induction j with
  | zero => intro h _; omega
  | succ n ih =>
    intro h1 hle
    rcases Nat.eq_zero_or_pos n with rfl | hn
    · have hr : List.range' 1 1 = [1] := rfl
      rw [hr, List.foldl_cons, List.foldl_nil]
      have hd : fixDist xo yo 0 1 = some ((px - px) * (px - px) + (py - py) * (py - py)) :=
        fixDist_some xo yo 0 1 px px py py (hx 0 (by omega)) (hx 1 (by omega))
          (hy 0 (by omega)) (hy 1 (by omega))
      have hd0 : fixDist xo yo 0 1 = some 0 := by
        rw [hd]
        norm_num
      rw [fixStep_near time maxdist mindur xo yo _ 1 hd0 hmaxd]
      simp
    · have hprev := ih (by omega) (by omega)
      rw [List.range'_concat, List.foldl_append, hprev, List.foldl_cons, List.foldl_nil,
        one_mul]
      have hd : fixDist xo yo 1 (1 + n) = some ((px - px) * (px - px) + (py - py) * (py - py)) :=
        fixDist_some xo yo 1 (1 + n) px px py py (hx 1 (by omega)) (hx (1 + n) (by omega))
          (hy 1 (by omega)) (hy (1 + n) (by omega))
      have hd0 : fixDist xo yo 1 (1 + n) = some 0 := by
        rw [hd]
        norm_num
      rw [fixStep_near time maxdist mindur xo yo _ (1 + n) hd0 hmaxd]
      simp

/-- C2 (amended): a stream of `N ≥ 2` samples at one constant position
followed by one sample farther than `maxdist`, with
`time[N-1] - time[1] ≥ mindur`, yields exactly one fixation end record, and
its representative position equals the constant position.  (The record
spans `time[1]` to `time[N-1]`: the detector anchors at sample 1 and closes
at the sample before the jump.) -/
theorem fixation_const_then_far (N : ℕ) (px py qx qy missing maxdist mindur : ℚ)
    (time : List ℚ) (hN : 2 ≤ N)
    (hmaxd : 0 ≤ maxdist)
    (hfar : distLeB ((px - qx) * (px - qx) + (py - qy) * (py - qy)) maxdist = false)
    (hdur : mindur ≤ time.getD (N - 1) 0 - time.getD 1 0) :
    fixation_detection (List.replicate N px ++ [qx]) (List.replicate N py ++ [qy])
        time missing maxdist mindur none
      = .ok ([time.getD 1 0],
          [(time.getD 1 0, time.getD (N - 1) 0,
            time.getD (N - 1) 0 - time.getD 1 0, some px, some py)]) := by
  have hgen : ∀ (c q : ℚ) (i : ℕ), i < N →
      (List.replicate N c ++ [q]).getD i 0 = c := by
    intro c q i hi
    rw [List.getD_append _ _ _ _ (by simpa using hi)]
    rw [List.getD_eq_getElem _ _ (by simpa using hi)]
    simp
  have hgenN : ∀ (c q : ℚ), (List.replicate N c ++ [q]).getD N 0 = q := by
    intro c q
    rw [List.getD_append_right _ _ _ _ (by simp)]
    simp
  have hlen : ∀ (c q : ℚ), (List.replicate N c ++ [q]).length = N + 1 := by
    intro c q
    simp
  have hx : ∀ i, i < N →
      ((List.replicate N px ++ [qx]).map some).getD i none = some px := by
    intro i hi
    rw [getD_map_some _ _ (by rw [hlen]; omega), hgen px qx i hi]
  have hy : ∀ i, i < N →
      ((List.replicate N py ++ [qy]).map some).getD i none = some py := by
    intro i hi
    rw [getD_map_some _ _ (by rw [hlen]; omega), hgen py qy i hi]
  have hxN : ((List.replicate N px ++ [qx]).map some).getD N none = some qx := by
    rw [getD_map_some _ _ (by rw [hlen]; omega), hgenN px qx]
  have hyN : ((List.replicate N py ++ [qy]).map some).getD N none = some qy := by
    rw [getD_map_some _ _ (by rw [hlen]; omega), hgenN py qy]
  unfold fixation_detection
  dsimp only
  rw [if_neg (show ¬(false = true) by simp)]
  dsimp only
  have hxolen : ((List.replicate N px ++ [qx]).map some).length - 1 = N := by
    simp
  rw [hxolen]
  have hsplit : List.range' 1 N = List.range' 1 (N - 1) ++ [N] := by
    have h1 : N = (N - 1) + 1 := by omega
    rw [h1, List.range'_concat, one_mul]
    congr 2
    omega
  rw [hsplit, List.foldl_append]
  rw [fixLoop_const time maxdist mindur _ _ px py N hN hx hy hmaxd (N - 1)
    (by omega) (le_refl _)]
  rw [List.foldl_cons, List.foldl_nil]
  have hd : fixDist ((List.replicate N px ++ [qx]).map some)
      ((List.replicate N py ++ [qy]).map some) 1 N
      = some ((px - qx) * (px - qx) + (py - qy) * (py - qy)) :=
    fixDist_some _ _ 1 N px qx py qy (hx 1 (by omega)) hxN (hy 1 (by omega)) hyN
  rw [fixStep_far time maxdist mindur _ _ (1, true, [time.getD 1 0], []) N _ hd hfar rfl]
  have hlast : ([time.getD 1 0] : List ℚ).getLastD 0 = time.getD 1 0 := rfl
  rw [hlast]
  rw [if_pos hdur]
  rw [hx 1 (by omega), hy 1 (by omega)]
  simp

/-- C2 counterexample: a stream of 4 samples all at (100, 100) spanning
duration 150 ≥ mindur = 50 yields *zero* fixation end records (and one
dangling provisional start at time 50): the fixation opened at sample 1 is
never closed because the stream ends, so the claimed "exactly one end
record" fails on every fully constant stream. -/
theorem fixation_constant_stream_cex :
    fixation_detection ([100, 100, 100, 100] : List ℚ) [100, 100, 100, 100]
        [0, 50, 100, 150] 0 25 50 none = .ok ([50], []) ∧
    ((50 : ℚ) ≤ 150 - 0) := by
  constructor
  · unfold fixation_detection
    dsimp only
    rw [if_neg (show ¬(false = true) by simp)]
    dsimp only
    have hx : ∀ i, i < 4 →
        (([100, 100, 100, 100] : List ℚ).map some).getD i none = some 100 := by
      decide
    have hlen : (([100, 100, 100, 100] : List ℚ).map some).length - 1 = 3 := rfl
    rw [hlen]
    rw [fixLoop_const [0, 50, 100, 150] 25 50 _ _ 100 100 4 (by omega) hx hx
      (by decide) 3 (by omega) (by omega)]
    rfl
  · norm_num

/-- C2 witness: the amended statement instantiated with 3 samples at (0, 0),
a jump to (100, 0), timestamps [0, 10, 80, 90], maxdist 25 and mindur 50. -/
theorem fixation_const_then_far_witness :
    fixation_detection (List.replicate 3 (0 : ℚ) ++ [100])
        (List.replicate 3 (0 : ℚ) ++ [0]) [0, 10, 80, 90] 5 25 50 none
      = .ok ([([0, 10, 80, 90] : List ℚ).getD 1 0],
          [(([0, 10, 80, 90] : List ℚ).getD 1 0,
            ([0, 10, 80, 90] : List ℚ).getD (3 - 1) 0,
            ([0, 10, 80, 90] : List ℚ).getD (3 - 1) 0
              - ([0, 10, 80, 90] : List ℚ).getD 1 0,
            some 0, some 0)]) :=
  fixation_const_then_far 3 0 0 100 0 5 25 50 [0, 10, 80, 90] (by omega)
    (by decide)
    (by norm_num [distLeB])
    (by norm_num [List.getD])

/-! ## Claim C9: smoothing validation -/

/-- C9 counterexample: a 1-sample signal with window length 2 (shorter than
the signal requirement) is returned unchanged instead of raising: the
`winlen < 3` early return precedes every validation. -/
theorem smooth_short_silent_cex :
    smooth [5] 2 "hanning" true = .ok [5] ∧ ([5] : List ℝ).length < 2 := by
  constructor
  · rfl
  · norm_num

/-- C9 (amended): for window lengths of at least 3, a signal shorter than
the window makes `smooth` fail with an error (the unsupported-window check
fires first for bad kernel names; the size check fires otherwise) — never a
silent return. -/
theorem smooth_short_signal_error (signal : List ℝ) (winlen : ℕ) (window : String)
    (lc : Bool) (h3 : 3 ≤ winlen) (hlen : signal.length < winlen) :
    ∃ msg, smooth signal winlen window lc = .error msg := by
  unfold smooth
  rw [if_neg (by omega)]
  by_cases hw : window ∈ smoothWindows
  · rw [if_neg (not_not_intro hw), if_pos hlen]
    exact ⟨_, rfl⟩
  · rw [if_pos hw]
    exact ⟨_, rfl⟩

/-- C9 witness: a 2-sample signal with window length 3. -/
theorem smooth_short_signal_error_witness :
    ∃ msg, smooth [5, 6] 3 "hanning" true = .error msg :=
  smooth_short_signal_error [5, 6] 3 "hanning" true (by omega) (by norm_num)

/-! ## Claim C8: Hampel filter on constant signals -/

theorem getD_replicate (n i : ℕ) (c : ℚ) (h : i < n) :
    (List.replicate n c).getD i 0 = c := by
  rw [List.getD_eq_getElem _ _ (by simpa using h)]
  simp

theorem sorted_le_replicate (n : ℕ) (c : ℚ) :
    List.Sorted (· ≤ ·) (List.replicate n c) := by
  induction n with
  | zero => simp
  | succ k ih =>
    rw [List.replicate_succ, List.sorted_cons]
    exact ⟨fun b hb => by rw [List.eq_of_mem_replicate hb], ih⟩

theorem npMedian_replicate (k : ℕ) (hk : 1 ≤ k) (c : ℚ) :
    npMedian (List.replicate k c) = some c := by
  obtain ⟨kp, rfl⟩ : ∃ kp, k = kp + 1 := ⟨k - 1, by omega⟩
  rw [List.replicate_succ]
  unfold npMedian
  have hsort : (c :: List.replicate kp c).insertionSort (· ≤ ·)
      = c :: List.replicate kp c := by
    apply List.Sorted.insertionSort_eq
    rw [← List.replicate_succ]
    exact sorted_le_replicate (kp + 1) c
  dsimp only
  rw [hsort]
  have hget : ∀ j, j < kp + 1 → (c :: List.replicate kp c).getD j 0 = c := by
    intro j hj
    rw [← List.replicate_succ]
    exact getD_replicate _ _ _ (by omega)
  have hlen : (c :: List.replicate kp c).length = kp + 1 := by simp
  rw [hlen]
  by_cases hpar : (kp + 1) % 2 = 1
  · rw [if_pos hpar, hget _ (by omega)]
  · rw [if_neg hpar, hget _ (by omega), hget _ (by omega)]
    norm_num

theorem set_replicate_self (n i : ℕ) (c : ℚ) :
    (List.replicate n c).set i c = List.replicate n c := by
  apply List.ext_getElem
  · simp
  · intro j h1 h2
    rw [List.getElem_set]
    split <;> simp

/-- The Hampel body leaves a constant signal unchanged whenever the focus
index is in range and the window is nonempty: the local median equals the
constant, so even when the (buggy) outlier comparison fires, the sample is
overwritten with its own value. -/
theorem hampelBody_const (T : ℚ) (n wstart wstop i : ℕ) (c : ℚ)
    (hi : i < n) (hw : wstart < n) (hww : wstart < wstop) :
    hampelBody T (List.replicate n c) wstart wstop i = .ok (List.replicate n c) := by
  unfold hampelBody
  dsimp only
  have hwin : ((List.replicate n c).drop wstart).take (wstop - wstart)
      = List.replicate (min (wstop - wstart) (n - wstart)) c := by
    rw [List.drop_replicate, List.take_replicate]
  have hk : 1 ≤ min (wstop - wstart) (n - wstart) := by omega
  rw [hwin, npMedian_replicate _ hk c]
  dsimp only
  rw [List.map_replicate, npMedian_replicate _ hk _]
  rw [if_pos (by simpa using hi)]
  split
  · dsimp only [Option.getD]
    rw [set_replicate_self]
  · rfl

theorem foldlM_const_state (f : List ℚ → ℕ → Except String (List ℚ)) (s : List ℚ) :
    ∀ (L : List ℕ), (∀ i ∈ L, f s i = .ok s) → L.foldlM f s = .ok s := by
  intro L
  induction L with
  | nil => intro _; rfl
  | cons a t ih =>
    intro h
    have ha := h a (List.mem_cons_self a t)
    have ht := ih (fun i hi => h i (List.mem_cons_of_mem a hi))
    simp only [List.foldlM_cons, ha]
    simpa using ht

/-- C8 counterexample: on the constant one-sample signal `[1]` with window
length 1 the Hampel filter raises `IndexError` (the focus index runs one
past the end when `winlen/2 = 0`) instead of returning the signal. -/
theorem hampel_short_window_cex :
    hampel [1] 1 3 "centre" = .error "IndexError" := rfl

/-- C8 (amended): for every constant signal, every window length ≥ 2 and
every threshold `T`, the centred Hampel filter returns the signal
unchanged: the local median equals the constant, so samples are only ever
replaced by their own value.  (Window lengths 0 and 1 instead raise
`IndexError`, see the counterexample.) -/
theorem hampel_const (c : ℚ) (n winlen : ℕ) (T : ℚ) (h2 : 2 ≤ winlen) :
    hampel (List.replicate n c) winlen T "centre" = .ok (List.replicate n c) := by
  unfold hampel
  rw [if_pos rfl]
  apply foldlM_const_state
  intro i hi
  rw [List.mem_range'] at hi
  obtain ⟨j, hj, rfl⟩ := hi
  have hlen : (List.replicate n c).length = n := by simp
  rw [hlen] at hj
  apply hampelBody_const <;> omega

/-- C8 witness: a concrete constant signal, window length 4, threshold 3. -/
theorem hampel_const_witness :
    hampel (List.replicate 5 (7 : ℚ)) 4 3 "centre" = .ok (List.replicate 5 7) :=
  hampel_const 7 5 4 3 (by omega)

/-! ## C6: the missing-value resolvers on signals without missing samples -/

theorem npwhere_eq_nil {α : Type} (p : α → Bool) (l : List α)
    (h : ∀ a ∈ l, p a = false) : npwhere p l = [] := by
  induction l with
  | nil => rfl
  | cons a t ih =>
    rw [npwhere_cons, h a (List.mem_cons_self a t),
      ih (fun b hb => h b (List.mem_cons_of_mem a hb))]
    rfl

theorem npwhere_all_true {α : Type} (p : α → Bool) (l : List α)
    (h : ∀ a ∈ l, p a = true) : npwhere p l = List.range l.length := by
  induction l with
  | nil => rfl
  | cons a t ih =>
    rw [npwhere_cons, h a (List.mem_cons_self a t),
      ih (fun b hb => h b (List.mem_cons_of_mem a hb)),
      List.length_cons, List.range_succ_eq_map]
    simp [Nat.succ_eq_add_one]

theorem zipWith_replicate_eq {α β γ : Type} (f : α → β → γ) (m : ℕ) (a : α) (b : β) :
    ∀ k, List.zipWith f (List.replicate m a) (List.replicate k b)
      = List.replicate (min m k) (f a b) := by
  induction m with
  | zero => intro k; simp
  | succ n ih =>
    intro k
    cases k with
    | zero => simp
    | succ j =>
      simp only [List.replicate_succ, List.zipWith_cons_cons, ih j,
        Nat.succ_min_succ]

theorem tail_replicate_eq {β : Type} (n : ℕ) (b : β) :
    (List.replicate n b).tail = List.replicate (n - 1) b := by
  cases n <;> simp [List.replicate_succ]

theorem getD_map_some_gen {β : Type} (l : List β) (d : β) (i : ℕ)
    (h : i < l.length) : (l.map some).getD i none = some (l.getD i d) := by
  rw [List.getD_eq_getElem _ _ (by simpa using h), List.getD_eq_getElem _ _ h]
  simp

theorem rangeStep2_zero_zero : rangeStep2 0 0 = [] := rfl

theorem rangeStep2_one_zero : rangeStep2 1 0 = [] := rfl

theorem replace_missings_carry_id {α : Type} [LinearOrderedField α]
    [DecidableEq α] (data : List α) (missing : α) (hne : data ≠ [])
    (h : ∀ v ∈ data, v ≠ missing) :
    replace_missings data missing false = .ok (data.map some) := by
  match data, hne with
  | d0 :: rest, _ =>
    have h0 : ¬ (d0 = missing) := h d0 (List.mem_cons_self d0 rest)
    have hw : npwhere (fun v : Option α => v = some missing)
        ((d0 :: rest).map some) = [] := by
      apply npwhere_eq_nil
      intro a ha
      obtain ⟨v, hv, rfl⟩ := List.mem_map.mp ha
      exact decide_eq_false (by simp [h v hv])
    unfold replace_missings
    rw [if_neg (by simp)]
    dsimp only
    rw [if_neg h0, carryLoop, if_pos hw]

theorem interpolate_missings_id {α : Type} [LinearOrderedField α]
    [DecidableEq α] (data : List α) (missing : α) (h2 : 2 ≤ data.length)
    (h : ∀ v ∈ data, v ≠ missing) :
    interpolate_missings data missing = .ok (data.map some) := by
  have hd : data.map (fun v => if v = missing then none else some v)
      = data.map some := by
    apply List.map_congr_left
    intro v hv
    rw [if_neg (h v hv)]
  have hnn : npwhere (fun v : Option α => v.isSome) (data.map some)
      = List.range (data.map some).length := by
    apply npwhere_all_true
    intro a ha
    obtain ⟨v, hv, rfl⟩ := List.mem_map.mp ha
    rfl
  unfold interpolate_missings
  dsimp only
  rw [hd, hnn]
  rw [if_neg (by simp; omega)]
  congr 1
  apply List.ext_getElem
  · simp
  · intro i h1 h1'
    have hi : i < data.length := by simpa using h1'
    rw [List.getElem_map, List.getElem_range, List.getElem_map]
    rw [getD_map_some_gen data (data.getD 0 0) i hi]
    dsimp only
    rw [List.getD_eq_getElem _ _ hi]

theorem interpolate_missing_id (signal : List ℚ) (mode : String) (mindur : ℤ)
    (margin : ℕ) (invalid : ℚ) (hne : signal ≠ [])
    (hmode : mode ∈ ["auto", "linear", "cubic"])
    (h : ∀ v ∈ signal, v ≠ invalid) :
    interpolate_missing signal mode mindur margin invalid
      = .ok (signal.map some) := by
  match signal, hne with
  | s0 :: rest, _ =>
    have h0 : ¬ (s0 = invalid) := h s0 (List.mem_cons_self s0 rest)
    have hinval : List.map (fun v => decide (v = invalid)) (s0 :: rest)
        = List.replicate (s0 :: rest).length false := by
      rw [List.eq_replicate_iff]
      refine ⟨by simp, ?_⟩
      intro b hb
      obtain ⟨v, hv, rfl⟩ := List.mem_map.mp hb
      exact decide_eq_false (h v hv)
    have h3 : ¬ (((s0 :: rest).map some).getD ((s0 :: rest).length - 1) none
        = some invalid) := by
      rw [getD_map_some _ _ (by simp)]
      intro heq
      have hm : (s0 :: rest).getD ((s0 :: rest).length - 1) 0 ∈ (s0 :: rest) := by
        rw [List.getD_eq_getElem _ _ (by simp)]
        exact List.getElem_mem _
      exact h _ hm (Option.some.inj heq)
    unfold interpolate_missing
    rw [if_neg (not_not_intro hmode)]
    dsimp only
    simp only [if_neg h0]
    rw [hinval, tail_replicate_eq, zipWith_replicate_eq,
      npwhere_eq_nil _ _ (fun a ha => by
        rw [List.eq_of_mem_replicate ha]; rfl), List.length_nil]
    rw [if_neg h3]
    simp only [Nat.sub_zero, rangeStep2_zero_zero, rangeStep2_one_zero,
      List.map_nil, List.nil_append, List.append_nil, List.length_nil,
      List.range_zero, List.foldlM_nil]
    rfl

/-- C6 counterexample: a one-sample signal contains no missing values, yet
the interpolation mode fails scipy's two-point minimum instead of returning
the signal unchanged. -/
theorem resolver_singleton_interpolate_cex :
    replace_missings [(5 : ℚ)] 0 true
      = .error "ValueError: x and y arrays must have at least 2 entries" := rfl

/-- C6: on signals containing no sample equal to the sentinel, the resolvers
are identities: carry-forward `replace_missings` on any nonempty signal,
interpolation-mode `replace_missings` on any signal of at least two samples,
and `traces.interpolate_missing` (any supported mode) on any nonempty signal
all return the input signal unchanged. -/
theorem resolvers_identity_on_clean_signals :
    (∀ (data : List ℚ) (missing : ℚ), data ≠ [] → (∀ v ∈ data, v ≠ missing) →
      replace_missings data missing false = .ok (data.map some)) ∧
    (∀ (data : List ℚ) (missing : ℚ), 2 ≤ data.length →
      (∀ v ∈ data, v ≠ missing) →
      replace_missings data missing true = .ok (data.map some)) ∧
    (∀ (signal : List ℚ) (mode : String) (mindur : ℤ) (margin : ℕ)
      (invalid : ℚ), signal ≠ [] → mode ∈ ["auto", "linear", "cubic"] →
      (∀ v ∈ signal, v ≠ invalid) →
      interpolate_missing signal mode mindur margin invalid
        = .ok (signal.map some)) := by
  refine ⟨fun data missing hne h => replace_missings_carry_id data missing hne h,
    fun data missing h2 h => ?_,
    fun signal mode mindur margin invalid hne hmode h =>
      interpolate_missing_id signal mode mindur margin invalid hne hmode h⟩
  show replace_missings data missing true = _
  unfold replace_missings
  rw [if_pos rfl]
  exact interpolate_missings_id data missing h2 h

theorem resolvers_identity_on_clean_signals_witness :
    replace_missings [(1 : ℚ), 2, 3] 0 false = .ok ([(1 : ℚ), 2, 3].map some) ∧
    replace_missings [(1 : ℚ), 2, 3] 0 true = .ok ([(1 : ℚ), 2, 3].map some) ∧
    interpolate_missing [(4 : ℚ), 5, 6] "auto" 5 10 (-1)
      = .ok ([(4 : ℚ), 5, 6].map some) :=
  ⟨resolvers_identity_on_clean_signals.1 [1, 2, 3] 0 (by decide) (by decide),
   resolvers_identity_on_clean_signals.2.1 [1, 2, 3] 0 (by decide) (by decide),
   resolvers_identity_on_clean_signals.2.2 [4, 5, 6] "auto" 5 10 (-1)
     (by decide) (List.mem_cons_self "auto" _) (by decide)⟩

/-! ## C10: the Engbert-Kliegl detector on streams with no suprathreshold
velocity -/

theorem foldl_fixed {σ ι : Type} (f : σ → ι → σ) (s : σ) (l : List ι)
    (h : ∀ i ∈ l, f s i = s) : l.foldl f s = s := by
  induction l with
  | nil => rfl
  | cons a t ih =>
    rw [List.foldl_cons, h a (List.mem_cons_self a t)]
    exact ih (fun i hi => h i (List.mem_cons_of_mem a hi))

/-- C10: on every input stream whose moving mask
`np.sum(vn > eta, axis=1) > 0` is false at every sample (no per-axis
velocity exceeds its adaptive 6-sigma threshold), `EK_microsaccade_detection`
raises `IndexError` on the empty candidate array instead of returning an
empty event list. -/
theorem EK_no_movement_indexerror (x y times : List ℚ) (md : ℚ)
    (h : ∀ c, c < (x.zip y).length →
      EKmoving (EKvn x y times) (EKeta (EKvn x y times) false)
        (EKeta (EKvn x y times) true) c = false) :
    EK_microsaccade_detection x y times md
      = .error "IndexError: too many indices for array" := by
  unfold EK_microsaccade_detection
  dsimp only
  rw [foldl_fixed]
  intro c hc
  rw [List.mem_range] at hc
  dsimp only
  rw [h c hc]
  rfl

theorem EK_no_movement_indexerror_witness :
    (∀ c, c < (([(1 : ℚ), 1, 1, 1, 1]).zip [(1 : ℚ), 1, 1, 1, 1]).length →
      EKmoving (EKvn [(1 : ℚ), 1, 1, 1, 1] [(1 : ℚ), 1, 1, 1, 1]
          [(0 : ℚ), 1, 2, 3, 4])
        (EKeta (EKvn [(1 : ℚ), 1, 1, 1, 1] [(1 : ℚ), 1, 1, 1, 1]
          [(0 : ℚ), 1, 2, 3, 4]) false)
        (EKeta (EKvn [(1 : ℚ), 1, 1, 1, 1] [(1 : ℚ), 1, 1, 1, 1]
          [(0 : ℚ), 1, 2, 3, 4]) true) c = false) ∧
    EK_microsaccade_detection [(1 : ℚ), 1, 1, 1, 1] [(1 : ℚ), 1, 1, 1, 1]
        [(0 : ℚ), 1, 2, 3, 4] 12
      = .error "IndexError: too many indices for array" :=
  ⟨by decide,
   EK_no_movement_indexerror [(1 : ℚ), 1, 1, 1, 1] [(1 : ℚ), 1, 1, 1, 1]
     [(0 : ℚ), 1, 2, 3, 4] 12 (by decide)⟩

/-! ## C7: smoothing a constant signal -/

theorem sum_pos_aux (x : ℝ) (hp : 0 < x) : ∀ (l : List ℝ),
    (∀ y ∈ l, 0 ≤ y) → x ∈ l → 0 < l.sum := by
  intro l
  induction l with
  | nil => intro _ hx; exact absurd hx (List.not_mem_nil x)
  | cons a t ih =>
    intro h0 hx
    rw [List.sum_cons]
    rcases List.mem_cons.mp hx with rfl | hxt
    · have ht := List.sum_nonneg (fun y hy => h0 y (List.mem_cons_of_mem _ hy))
      linarith
    · have ha := h0 a (List.mem_cons_self a t)
      have ht := ih (fun y hy => h0 y (List.mem_cons_of_mem _ hy)) hxt
      linarith

theorem sum_getD_range (l : List ℝ) (N : ℕ) (hN : l.length = N) :
    ∑ j ∈ Finset.range N, l.getD j 0 = l.sum := by
  subst hN
  induction l with
  | nil => simp
  | cons a t ih =>
    rw [List.length_cons, Finset.sum_range_succ']
    simp only [List.getD_cons_succ, List.getD_cons_zero]
    rw [ih, List.sum_cons, add_comm]

theorem list_sum_map_div (l : List ℝ) (S : ℝ) :
    (l.map (fun v => v / S)).sum = l.sum / S := by
  induction l with
  | nil => simp
  | cons a t ih => simp [ih, add_div]

theorem getD_replicate_gen {β : Type} (n i : ℕ) (b d : β) (h : i < n) :
    (List.replicate n b).getD i d = b := by
  rw [List.getD_eq_getElem _ _ (by simpa using h), List.getElem_replicate]

theorem cos_first_lt_one (M : ℕ) (h : 3 ≤ M) :
    Real.cos (2 * Real.pi / ((M : ℝ) - 1)) < 1 := by
  have hM : (3 : ℝ) ≤ (M : ℝ) := by exact_mod_cast h
  have hpi := Real.pi_pos
  have hθpos : 0 < 2 * Real.pi / ((M : ℝ) - 1) :=
    div_pos (by linarith) (by linarith)
  have hθlt : 2 * Real.pi / ((M : ℝ) - 1) < 2 * Real.pi := by
    rw [div_lt_iff₀ (by linarith)]
    nlinarith
  rcases (Real.cos_le_one _).lt_or_eq with hlt | heq
  · exact hlt
  · exfalso
    have h0 := (Real.cos_eq_one_iff_of_lt_of_lt (by linarith) hθlt).mp heq
    rw [h0] at hθpos
    exact lt_irrefl 0 hθpos

theorem npOnes_length (M : ℕ) : (npOnes M).length = M := by
  simp [npOnes]

theorem npOnes_sum_pos (M : ℕ) (h : 1 ≤ M) : 0 < (npOnes M).sum := by
  unfold npOnes
  rw [List.sum_replicate, nsmul_eq_mul, mul_one]
  exact_mod_cast Nat.pos_of_ne_zero (by omega)

theorem npHanning_length (M : ℕ) (h : 2 ≤ M) : (npHanning M).length = M := by
  unfold npHanning
  rw [if_neg (by omega), if_neg (by omega)]
  simp

theorem npHanning_sum_pos (M : ℕ) (h : 3 ≤ M) : 0 < (npHanning M).sum := by
  have hcos := cos_first_lt_one M h
  unfold npHanning
  rw [if_neg (by omega), if_neg (by omega)]
  refine sum_pos_aux (0.5 - 0.5 * Real.cos (2 * Real.pi / ((M : ℝ) - 1)))
    (by linarith) _ ?_
    (List.mem_map.mpr ⟨1, List.mem_range.mpr (by omega), by norm_num⟩)
  intro y hy
  obtain ⟨k, hk, rfl⟩ := List.mem_map.mp hy
  nlinarith [Real.cos_le_one (2 * Real.pi * (k : ℝ) / ((M : ℝ) - 1))]

theorem npHamming_length (M : ℕ) (h : 2 ≤ M) : (npHamming M).length = M := by
  unfold npHamming
  rw [if_neg (by omega), if_neg (by omega)]
  simp

theorem npHamming_sum_pos (M : ℕ) (h : 3 ≤ M) : 0 < (npHamming M).sum := by
  unfold npHamming
  rw [if_neg (by omega), if_neg (by omega)]
  apply List.sum_pos
  · intro y hy
    obtain ⟨k, hk, rfl⟩ := List.mem_map.mp hy
    nlinarith [Real.cos_le_one (2 * Real.pi * (k : ℝ) / ((M : ℝ) - 1))]
  · simp only [ne_eq, List.map_eq_nil_iff, List.range_eq_nil]
    omega

theorem npBartlett_length (M : ℕ) (h : 2 ≤ M) : (npBartlett M).length = M := by
  unfold npBartlett
  rw [if_neg (by omega), if_neg (by omega)]
  simp

theorem npBartlett_sum_pos (M : ℕ) (h : 3 ≤ M) : 0 < (npBartlett M).sum := by
  have hM : (3 : ℝ) ≤ (M : ℝ) := by exact_mod_cast h
  unfold npBartlett
  rw [if_neg (by omega), if_neg (by omega)]
  refine sum_pos_aux
    (2 / ((M : ℝ) - 1) * (((M : ℝ) - 1) / 2 - |1 - ((M : ℝ) - 1) / 2|))
    ?_ _ ?_ (List.mem_map.mpr ⟨1, List.mem_range.mpr (by omega), by norm_num⟩)
  · apply mul_pos (div_pos (by linarith) (by linarith))
    have habs : |1 - ((M : ℝ) - 1) / 2| < ((M : ℝ) - 1) / 2 := by
      rw [abs_lt]
      constructor <;> linarith
    linarith
  · intro y hy
    obtain ⟨k, hk, rfl⟩ := List.mem_map.mp hy
    rw [List.mem_range] at hk
    have hk1 : (k : ℝ) ≤ (M : ℝ) - 1 := by
      have : (k : ℝ) + 1 ≤ (M : ℝ) := by exact_mod_cast hk
      linarith
    have hk0 : (0 : ℝ) ≤ (k : ℝ) := Nat.cast_nonneg k
    apply mul_nonneg (div_nonneg (by linarith) (by linarith))
    have habs : |(k : ℝ) - ((M : ℝ) - 1) / 2| ≤ ((M : ℝ) - 1) / 2 := by
      rw [abs_le]
      constructor <;> linarith
    linarith

theorem npBlackman_length (M : ℕ) (h : 2 ≤ M) : (npBlackman M).length = M := by
  unfold npBlackman
  rw [if_neg (by omega), if_neg (by omega)]
  simp

theorem npBlackman_sum_pos (M : ℕ) (h : 3 ≤ M) : 0 < (npBlackman M).sum := by
  have hcos := cos_first_lt_one M h
  have hsq := sq_nonneg (Real.cos (2 * Real.pi / ((M : ℝ) - 1)) - 1)
  have hdbl : ∀ k : ℕ, Real.cos (4 * Real.pi * (k : ℝ) / ((M : ℝ) - 1))
      = 2 * Real.cos (2 * Real.pi * (k : ℝ) / ((M : ℝ) - 1)) ^ 2 - 1 := by
    intro k
    rw [show (4 : ℝ) * Real.pi * (k : ℝ) / ((M : ℝ) - 1)
      = 2 * (2 * Real.pi * (k : ℝ) / ((M : ℝ) - 1)) from by ring, Real.cos_two_mul]
  unfold npBlackman
  rw [if_neg (by omega), if_neg (by omega)]
  refine sum_pos_aux
    (0.42 - 0.5 * Real.cos (2 * Real.pi / ((M : ℝ) - 1))
      + 0.08 * Real.cos (4 * Real.pi / ((M : ℝ) - 1)))
    ?_ _ ?_ (List.mem_map.mpr ⟨1, List.mem_range.mpr (by omega), by norm_num⟩)
  · have hd := hdbl 1
    norm_num at hd
    rw [hd]
    nlinarith [sq_nonneg (Real.cos (2 * Real.pi / ((M : ℝ) - 1)) - 1)]
  · intro y hy
    obtain ⟨k, hk, rfl⟩ := List.mem_map.mp hy
    rw [hdbl k]
    nlinarith [Real.cos_le_one (2 * Real.pi * (k : ℝ) / ((M : ℝ) - 1)),
      sq_nonneg (Real.cos (2 * Real.pi * (k : ℝ) / ((M : ℝ) - 1)) - 1)]

theorem convValid_norm_replicate (w : List ℝ) (m : ℕ) (c : ℝ)
    (hws : 0 < w.sum) (hle : w.length ≤ m) (_h1 : 1 ≤ w.length) :
    convValid (w.map (fun v => v / w.sum)) (List.replicate m c)
      = List.replicate (m - w.length + 1) c := by
  unfold convValid convValidAux
  simp only [List.length_map, List.length_replicate]
  rw [if_pos hle, List.eq_replicate_iff]
  refine ⟨by simp, ?_⟩
  intro b hb
  obtain ⟨k, hkmem, rfl⟩ := List.mem_map.mp hb
  rw [List.mem_range] at hkmem
  have hterm : ∀ j ∈ Finset.range w.length,
      (w.map (fun v => v / w.sum)).getD j 0
          * (List.replicate m c).getD (k + w.length - 1 - j) 0
        = (w.map (fun v => v / w.sum)).getD j 0 * c := by
    intro j hj
    rw [Finset.mem_range] at hj
    rw [getD_replicate_gen m _ c 0 (by omega)]
  rw [Finset.sum_congr rfl hterm, ← Finset.sum_mul,
    sum_getD_range (w.map (fun v => v / w.sum)) w.length (by simp),
    list_sum_map_div, div_self (ne_of_gt hws), one_mul]

theorem smooth_const_core (n winlen : ℕ) (c : ℝ) (window : String)
    (h3 : 3 ≤ winlen) (hlen : winlen ≤ n) (hwmem : window ∈ smoothWindows)
    (w : List ℝ)
    (hw : (if window = "flat" then npOnes winlen
      else if window = "hanning" then npHanning winlen
      else if window = "hamming" then npHamming winlen
      else if window = "bartlett" then npBartlett winlen
      else npBlackman winlen) = w)
    (hwl : w.length = winlen) (hws : 0 < w.sum) :
    smooth (List.replicate n c) winlen window true
      = .ok (List.replicate n c) := by
  unfold smooth
  rw [if_neg (by omega : ¬ winlen < 3), if_neg (not_not_intro hwmem),
    if_neg (by rw [List.length_replicate]; omega)]
  dsimp only
  rw [hw]
  simp only [List.length_replicate, List.drop_replicate, List.take_replicate,
    List.reverse_replicate]
  rw [show min (winlen - 1) (n - 1) = winlen - 1 from by omega,
    show min (winlen - 1) (n - (n - winlen + 1)) = winlen - 1 from by omega,
    ← List.replicate_add, ← List.replicate_add,
    convValid_norm_replicate w _ c hws (by omega) (by omega)]
  rw [if_pos trivial]
  simp only [List.length_replicate, List.take_replicate, List.drop_replicate]
  congr 1
  congr 1
  omega

/-- C7: for every constant signal whose length is at least the window
length and every supported kernel, `smooth` with length correction enabled
returns the input signal exactly (same length, every sample the constant). -/
theorem smooth_constant_identity (n winlen : ℕ) (c : ℝ) (window : String)
    (hwin : window ∈ smoothWindows) (hlen : winlen ≤ n) :
    smooth (List.replicate n c) winlen window true
      = .ok (List.replicate n c) := by
  by_cases h3 : winlen < 3
  · unfold smooth
    rw [if_pos h3]
  · push_neg at h3
    have hwin' := hwin
    simp only [smoothWindows, List.mem_cons, List.not_mem_nil, or_false] at hwin'
    rcases hwin' with rfl | rfl | rfl | rfl | rfl
    · exact smooth_const_core n winlen c "flat" h3 hlen hwin (npOnes winlen)
        (by rw [if_pos rfl]) (npOnes_length winlen)
        (npOnes_sum_pos winlen (by omega))
    · exact smooth_const_core n winlen c "hanning" h3 hlen hwin
        (npHanning winlen) (by rw [if_neg (by decide), if_pos rfl])
        (npHanning_length winlen (by omega)) (npHanning_sum_pos winlen h3)
    · exact smooth_const_core n winlen c "hamming" h3 hlen hwin
        (npHamming winlen)
        (by rw [if_neg (by decide), if_neg (by decide), if_pos rfl])
        (npHamming_length winlen (by omega)) (npHamming_sum_pos winlen h3)
    · exact smooth_const_core n winlen c "bartlett" h3 hlen hwin
        (npBartlett winlen)
        (by rw [if_neg (by decide), if_neg (by decide), if_neg (by decide),
          if_pos rfl])
        (npBartlett_length winlen (by omega)) (npBartlett_sum_pos winlen h3)
    · exact smooth_const_core n winlen c "blackman" h3 hlen hwin
        (npBlackman winlen)
        (by rw [if_neg (by decide), if_neg (by decide), if_neg (by decide),
          if_neg (by decide)])
        (npBlackman_length winlen (by omega)) (npBlackman_sum_pos winlen h3)

theorem smooth_constant_identity_witness :
    "flat" ∈ smoothWindows ∧ 3 ≤ 3 ∧
    smooth (List.replicate 3 (2 : ℝ)) 3 "flat" true
      = .ok (List.replicate 3 (2 : ℝ)) :=
  ⟨List.mem_cons_self "flat" _, le_refl 3,
   smooth_constant_identity 3 3 2 "flat" (List.mem_cons_self "flat" _)
     (le_refl 3)⟩

end PyGaze
